import Mathlib

/-
Verification of the include-graph language server in src/server/src/main.rs.

Modelling conventions:
* Strings are lists of characters (Str); byte offsets use Char.utf8Size.
* u32 arithmetic wraps modulo 2^32, matching release-build semantics of the
  source language; places where a debug build would abort on overflow are
  noted at the theorems concerned.
* Fallible operations return Except/Option; an unwrap on a value that can be
  absent is modelled as an Except.error carrying a panic message.
* The graph store (graph.rs) and the DFS iterator (dfs.rs) are not part of the
  sources provided under src/; those definitions are modelled from the spec
  and are marked as such in their doc comments.
-/

set_option maxRecDepth 4000

abbrev Str := List Char

def str (s : String) : Str := s.data

def utf8Len : Str → Nat
  | [] => 0
  | c :: cs => c.utf8Size + utf8Len cs

/-- Splitting on a separator character, mirroring str::split: the result is
never empty and an empty input yields one empty piece. -/
def splitOnChar (sep : Char) : Str → List Str
  | [] => [[]]
  | c :: cs =>
    let rest := splitOnChar sep cs
    if c = sep then [] :: rest
    else
      match rest with
      | [] => [[c]]
      | r :: rs => (c :: r) :: rs

/-- Unicode-whitespace trim at both ends, mirroring str::trim. -/
def trimStr (s : Str) : Str :=
  ((s.dropWhile Char.isWhitespace).reverse.dropWhile Char.isWhitespace).reverse

def digitsToNat : Str → Nat → Nat
  | [], acc => acc
  | c :: cs, acc => digitsToNat cs (acc * 10 + (c.toNat - 48))

/-- str::parse::<u32> restricted to the digit strings the diagnostic regex can
capture: all-digit, nonempty, failing on u32 overflow. -/
def parseU32 (s : Str) : Option Nat :=
  if s ≠ [] ∧ s.all Char.isDigit then
    let v := digitsToNat s 0
    if v < 4294967296 then some v else none
  else none

/-- Wrapping u32 subtraction of 2, the release-build meaning of the bare
subtraction in parse_validator_stdout (a debug build aborts when v < 2). -/
def u32WrapSub2 (v : Nat) : Nat := (v + 4294967294) % 4294967296

/-- The line-number computation of parse_validator_stdout: parse the captured
linenum as u32 with fallback 0, then subtract 2 (u32, wrapping). -/
def diagnosticLineNumber (linenum : Str) : Nat :=
  u32WrapSub2 (match parseU32 linenum with
    | some i => i
    | none => 0)

/-! ### The diagnostic regex

RE_DIAGNOSTIC in main.rs:
  (anchored at line start)
  filepath: one or more characters excluding question mark, angle brackets,
            star, pipe and double quote (greedy);
  then a parenthesised digit run, a colon surrounded by spaces, a severity word
  (error or warning), a space, a letter A..C, digits, colon-space, and a
  nonempty message running to the end of the line.
The pattern is not anchored at the line end.  Greedy matching with backtracking
means the filepath extends to the rightmost opening parenthesis from which the
rest of the pattern can be parsed. -/

def forbiddenFilepathChar (c : Char) : Bool :=
  c = '?' || c = '<' || c = '>' || c = '*' || c = '|' || c = '"'

def expectStr (p : Str) (s : Str) : Option Str :=
  match p, s with
  | [], rest => some rest
  | _ :: _, [] => none
  | a :: ps, b :: bs => if a = b then expectStr ps bs else none

/-- Parses what follows the opening parenthesis of a diagnostic line:
digit run, close paren, colon, severity, code, message.  Returns
(linenum, severity, output). -/
def parseDiagTail (s : Str) : Option (Str × Str × Str) :=
  let digits := s.takeWhile Char.isDigit
  if digits.isEmpty then none
  else
    match expectStr (str ") : ") (s.drop digits.length) with
    | none => none
    | some r1 =>
      let sevOpt : Option (Str × Str) :=
        match expectStr (str "error ") r1 with
        | some r2 => some (str "error", r2)
        | none =>
          match expectStr (str "warning ") r1 with
          | some r2 => some (str "warning", r2)
          | none => none
      match sevOpt with
      | none => none
      | some (sev, r2) =>
        match r2 with
        | [] => none
        | code :: r3 =>
          if code = 'A' || code = 'B' || code = 'C' then
            let codeDigits := r3.takeWhile Char.isDigit
            if codeDigits.isEmpty then none
            else
              match expectStr (str ": ") (r3.drop codeDigits.length) with
              | none => none
              | some r4 =>
                let out := r4.takeWhile (fun c => c ≠ '\n')
                if out.isEmpty then none else some (digits, sev, out)
          else none

def matchDiagAt (line : Str) (k : Nat) : Option (Str × Str × Str × Str) :=
  match line.drop k with
  | '(' :: tail =>
    match parseDiagTail tail with
    | some (ln, sev, out) => some (line.take k, ln, sev, out)
    | none => none
  | _ => none

def matchDiagDesc (line : Str) : Nat → Option (Str × Str × Str × Str)
  | 0 => none
  | k + 1 =>
    match matchDiagAt line (k + 1) with
    | some r => some r
    | none => matchDiagDesc line k

/-- RE_DIAGNOSTIC applied to one line of driver output; returns
(filepath, linenum, severity, output) captures on a match. -/
def matchDiagnostic (line : Str) : Option (Str × Str × Str × Str) :=
  matchDiagDesc line (line.takeWhile (fun c => ! forbiddenFilepathChar c)).length

/-! ### URIs and diagnostics -/

structure Url where
  path : Str
deriving DecidableEq, Repr

def isAbsolute (p : Str) : Bool :=
  match p with
  | '/' :: _ => true
  | _ => false

/-- Url::from_file_path of the url crate on a Unix host: succeeds exactly on
absolute paths. -/
def Url.fromFilePath (p : Str) : Option Url :=
  if isAbsolute p then some ⟨p⟩ else none

/-- Url::from_file_path(..).unwrap(): the panic on a relative path is
modelled as an Except.error. -/
def urlUnwrap (p : Str) : Except String Url :=
  match Url.fromFilePath p with
  | some u => Except.ok u
  | none => Except.error "panic: Url::from_file_path failed on a relative path"

inductive DiagnosticSeverity
  | Error
  | Warning
  | Information
deriving DecidableEq, Repr

structure Position where
  line : Nat
  character : Nat
deriving DecidableEq, Repr

/-- An LSP range; the source's field named end is called stop here. -/
structure Range where
  start : Position
  stop : Position
deriving DecidableEq, Repr

structure Diagnostic where
  range : Range
  severity : Option DiagnosticSeverity
  source : Option Str
  message : Str
deriving DecidableEq, Repr

/-- Modelled from the spec: consts::SOURCE (consts.rs is not under src) is a
fixed constant tag identifying this server. -/
def SOURCE : Str := str "mc-glsl"

abbrev DiagMap := List (Url × List Diagnostic)

def lookupMap : DiagMap → Url → Option (List Diagnostic)
  | [], _ => none
  | (k, v) :: rest, u => if k = u then some v else lookupMap rest u

/-- get_mut-push-or-insert on the per-URI diagnostic lists. -/
def pushDiag : DiagMap → Url → Diagnostic → DiagMap
  | [], u, d => [(u, [d])]
  | (k, v) :: rest, u, d =>
    if k = u then (k, v ++ [d]) :: rest else (k, v) :: pushDiag rest u d

def mkDiagnostic (lineNo : Nat) (sev : DiagnosticSeverity) (msg : Str) : Diagnostic :=
  { range := ⟨⟨lineNo, 0⟩, ⟨lineNo, 1000⟩⟩
    severity := some sev
    source := some SOURCE
    message := trimStr msg }

def severityOf (sev : Str) : DiagnosticSeverity :=
  if sev = str "error" then .Error
  else if sev = str "warning" then .Warning
  else .Information

def parse_validator_stdout_lines (uri : Str) : List Str → DiagMap → Except String DiagMap
  | [], m => .ok m
  | line :: rest, m =>
    match matchDiagnostic line with
    | none => parse_validator_stdout_lines uri rest m
    | some (fp, ln, sev, out) =>
      let lineNo := diagnosticLineNumber ln
      let origin := if fp = str "0" then uri else fp
      match urlUnwrap origin with
      | .error e => .error e
      | .ok u =>
        parse_validator_stdout_lines uri rest
          (pushDiag m u (mkDiagnostic lineNo (severityOf sev) out))

/-- parse_validator_stdout from main.rs: split the driver output on newlines,
skip lines the diagnostic regex rejects, and accumulate a URI-keyed map of
diagnostics.  The triggering uri replaces the literal filepath "0". -/
def parse_validator_stdout (uri : Str) (stdout : Str) : Except String DiagMap :=
  parse_validator_stdout_lines uri (splitOnChar '\n' stdout) []

example : matchDiagnostic (str "0(7) : error C0001: bad thing") =
    some (str "0", str "7", str "error", str "bad thing") := by decide

example : diagnosticLineNumber (str "7") = 5 := by decide

example : diagnosticLineNumber (str "0") = 4294967294 := by decide

/-! ### The include regex and the scanner -/

def includeLit : Str := str "#include \""

/-- Splits a string at its last double quote: some (before, after) with the
quote itself removed; the after part holds no quote. -/
def lastQuoteSplit : Str → Option (Str × Str)
  | [] => none
  | c :: cs =>
    match lastQuoteSplit cs with
    | some (cap, t) => some (c :: cap, t)
    | none => if c = '"' then some ([], cs) else none

/-- The capture of RE_INCLUDE after the literal prefix has been consumed:
the greedy dot-plus with backtracking captures everything before the last
double quote that still lies before any newline; the capture must be
nonempty.  The pattern is not anchored at the line end, so anything may
follow that quote. -/
def includeCapture (rest : Str) : Option Str :=
  match lastQuoteSplit (rest.takeWhile (fun c => c ≠ '\n')) with
  | none => none
  | some (cap, _) => if cap.isEmpty then none else some cap

/-- RE_INCLUDE applied at successive positions of the lazy leading-whitespace
loop; ws is the byte offset consumed so far.  Returns the capture together
with its byte offsets in the line (capture group start and end). -/
def matchIncludeAux : Str → Nat → Option (Str × Nat × Nat)
  | [], _ => none
  | c :: cs, ws =>
    if includeLit.isPrefixOf (c :: cs) then
      match includeCapture ((c :: cs).drop includeLit.length) with
      | none => none
      | some cap => some (cap, ws + 10, ws + 10 + utf8Len cap)
    else if c.isWhitespace then matchIncludeAux cs (ws + c.utf8Size)
    else none

def matchInclude (line : Str) : Option (Str × Nat × Nat) :=
  matchIncludeAux line 0

/-- Path join with the platform semantics of PathBuf::join on Unix: an
absolute right side replaces the left side.  PathBuf::from_slash is the
identity on a Unix host. -/
def joinPath (a b : Str) : Str :=
  if isAbsolute b then b
  else if a.isEmpty then b
  else if a.getLast? = some '/' then a ++ b
  else a ++ '/' :: b

/-- Path::parent(): the path with its last component removed. -/
def parentPath (p : Str) : Str :=
  let rev := p.reverse
  let name := rev.takeWhile (fun c => c ≠ '/')
  match rev.drop name.length with
  | [] => []
  | ['/'] => ['/']
  | _ :: rest => rest.reverse

def stripCR (l : Str) : Str :=
  match l.getLast? with
  | some '\r' => l.dropLast
  | _ => l

/-- BufRead::lines on file content: split at newlines, drop the final empty
fragment after a terminating newline, strip one trailing CR per line. -/
def linesOf (content : Str) : List Str :=
  let parts := splitOnChar '\n' content
  let parts := if parts.getLast? = some [] then parts.dropLast else parts
  parts.map stripCR

/-- The include-target resolution of find_includes: a target beginning with a
slash is stripped and joined under workspace_root/shaders, anything else is
joined to the including file's parent directory. -/
def resolveInclude (root file cap : Str) : Str :=
  if isAbsolute cap then
    joinPath (joinPath root (str "shaders")) (cap.drop 1)
  else
    joinPath (parentPath file) cap

structure IncludePosition where
  line : Nat
  start : Nat
  stop : Nat
deriving DecidableEq, Repr

/-- find_includes from main.rs, with the file's content passed in place of the
filesystem read: every line matching RE_INCLUDE contributes its resolved
target and the capture's byte offsets, at the line's zero-based index. -/
def find_includes (root file content : Str) : List (Str × IncludePosition) :=
  (linesOf content).enum.foldl
    (fun acc li =>
      match matchInclude li.2 with
      | none => acc
      | some (cap, s, e) => acc ++ [(resolveInclude root file cap, ⟨li.1, s, e⟩)])
    []

/-! ### The graph store (modelled from the spec) -/

/-- Modelled from the spec: graph.rs's CachedStableGraph is not under src/.
Node indexes are positions in the node list; edges are (parent, child, meta)
triples in insertion order, which is also the child ordering. -/
structure CachedStableGraph where
  nodes : List Str
  edges : List (Nat × Nat × IncludePosition)
deriving DecidableEq, Repr

def find_node_aux : List Str → Str → Nat → Option Nat
  | [], _, _ => none
  | q :: qs, p, i => if q = p then some i else find_node_aux qs p (i + 1)

def find_node (g : CachedStableGraph) (p : Str) : Option Nat :=
  find_node_aux g.nodes p 0

def get_node (g : CachedStableGraph) (i : Nat) : Str :=
  g.nodes.getD i []

def add_node (g : CachedStableGraph) (p : Str) : CachedStableGraph × Nat :=
  match find_node g p with
  | some i => (g, i)
  | none => ({ g with nodes := g.nodes ++ [p] }, g.nodes.length)

def add_edge (g : CachedStableGraph) (parent child : Nat) (pos : IncludePosition) :
    CachedStableGraph :=
  { g with edges := g.edges ++ [(parent, child, pos)] }

def removeFirstEdge : List (Nat × Nat × IncludePosition) → Nat → Nat →
    List (Nat × Nat × IncludePosition)
  | [], _, _ => []
  | e :: es, p, c => if e.1 = p ∧ e.2.1 = c then es else e :: removeFirstEdge es p c

/-- Modelled from the spec: remove_edge removes one matching (parent, child)
edge, the first inserted when several are parallel. -/
def remove_edge (g : CachedStableGraph) (parent child : Nat) : CachedStableGraph :=
  { g with edges := removeFirstEdge g.edges parent child }

def child_edges (g : CachedStableGraph) (parent : Nat) :
    List (Nat × Nat × IncludePosition) :=
  g.edges.filter (fun e => e.1 == parent)

def child_node_indexes (g : CachedStableGraph) (parent : Nat) : List Nat :=
  (child_edges g parent).map (fun e => e.2.1)

def child_node_meta (g : CachedStableGraph) (parent : Nat) :
    List (Str × IncludePosition) :=
  (child_edges g parent).map (fun e => (get_node g e.2.1, e.2.2))

def parent_node_indexes (g : CachedStableGraph) (child : Nat) : List Nat :=
  (g.edges.filter (fun e => e.2.1 == child)).map (fun e => e.1)

def lastComponent (p : Str) : Str :=
  (p.reverse.takeWhile (fun c => c ≠ '/')).reverse

/-- Path::extension(): the part of the file name after its last dot; none when
there is no dot or when the only dot leads the name. -/
def extension? (p : Str) : Option Str :=
  let name := lastComponent p
  let revAfter := name.reverse.takeWhile (fun c => c ≠ '.')
  if revAfter.length ≥ name.length then none
  else if revAfter.length + 1 = name.length then none
  else some revAfter.reverse

def isTopLevel (p : Str) : Bool :=
  match extension? p with
  | some e => e == str "fsh" || e == str "vsh" || e == str "gsh" || e == str "csh"
  | none => false

/-- Modelled from the spec: collect_root_ancestors walks parents transitively
with deduplication and keeps the nodes with a shader-kind extension, the
queried node itself excluded.  Fuel-bounded worklist walk. -/
def collectAncestorsAux (g : CachedStableGraph) : Nat → List Nat → List Nat → List Nat
  | 0, _, acc => acc
  | _ + 1, [], acc => acc
  | fuel + 1, n :: stack, acc =>
    if n ∈ acc then collectAncestorsAux g fuel stack acc
    else collectAncestorsAux g fuel (parent_node_indexes g n ++ stack) (acc ++ [n])

def collect_root_ancestors (g : CachedStableGraph) (i : Nat) : List Nat :=
  (collectAncestorsAux g
      ((g.edges.length + 2) * (g.edges.length + 2) + g.nodes.length + 2)
      (parent_node_indexes g i) []).filter
    (fun n => isTopLevel (get_node g n) && n != i)

/-! ### The DFS (modelled from the spec) -/

structure CycleError where
  a : Nat
  b : Nat
deriving DecidableEq, Repr

/-- Modelled from the spec: dfs.rs's cycle-detecting pre-order DFS is not
under src/.  Work items carry the ancestor stack of their branch; children
are pushed in edge-insertion order; re-encountering an ancestor yields a
CycleError with the two endpoints.  Fuel-bounded. -/
def dfsRun (g : CachedStableGraph) : Nat → List (Nat × Option Nat × List Nat) →
    Except CycleError (List (Nat × Option Nat))
  | 0, _ => .ok []
  | _ + 1, [] => .ok []
  | fuel + 1, (n, parent, anc) :: rest =>
    if n ∈ anc then .error ⟨parent.getD n, n⟩
    else
      match dfsRun g fuel
          (((child_node_indexes g n).map (fun c => (c, some n, anc ++ [n]))) ++ rest) with
      | .error e => .error e
      | .ok tail => .ok ((n, parent) :: tail)

def dfsFuel (g : CachedStableGraph) : Nat := 2 ^ (g.nodes.length + g.edges.length + 4)

def get_dfs_for_node (g : CachedStableGraph) (root : Nat) :
    Except CycleError (List (Nat × Option Nat)) :=
  dfsRun g (dfsFuel g) [(root, none, [])]

/-! ### The graph maintainer -/

def add_include (g : CachedStableGraph) (inc : Str × IncludePosition) (node : Nat) :
    CachedStableGraph :=
  let gi := add_node g inc.1
  add_edge gi.1 node gi.2 inc.2

/-- update_includes from main.rs, with the scanner's result passed in as the
include list (the source runs find_includes on the saved file first).  The
two set differences mirror the HashSet diff of (child_path, position) pairs;
each removal removes one (parent, child) edge, each insertion re-looks-up the
pending pair in the scanned list by child path alone. -/
def update_includes (g : CachedStableGraph) (file : Str)
    (includes : List (Str × IncludePosition)) : CachedStableGraph :=
  match find_node g file with
  | none => g
  | some idx =>
    let prev := (child_node_meta g idx).dedup
    let news := includes.dedup
    let toBeRemoved := prev.filter (fun x => ! news.contains x)
    let toBeAdded := news.filter (fun x => ! prev.contains x)
    let g1 := toBeRemoved.foldl
      (fun acc removal =>
        match find_node acc removal.1 with
        | none => acc
        | some child => remove_edge acc idx child) g
    toBeAdded.foldl
      (fun acc insertion =>
        match includes.find? (fun f => f.1 == insertion.1) with
        | none => acc
        | some inc => add_include acc inc idx) g1

example : matchInclude (str "#include \"a.glsl\"") = some (str "a.glsl", 10, 16) := by decide

example : matchInclude (str "  #include \"/lib/c.glsl\"") =
    some (str "/lib/c.glsl", 12, 23) := by decide

example : matchInclude (str "#include \"a.glsl\" foo") = some (str "a.glsl", 10, 16) := by
  decide

example : resolveInclude (str "/w") (str "/w/shaders/a.fsh") (str "/lib/c.glsl") =
    str "/w/shaders/lib/c.glsl" := by decide

example : resolveInclude (str "/w") (str "/w/shaders/a.fsh") (str "b.glsl") =
    str "/w/shaders/b.glsl" := by decide

example : find_includes (str "/w") (str "/w/shaders/a.fsh")
      (str "#version 330\n#include \"b.glsl\"\n") =
    [(str "/w/shaders/b.glsl", ⟨1, 10, 16⟩)] := by decide

/-! ### Source loading and the lint orchestrator -/

def crlfToLf : Str → Str
  | [] => []
  | '\r' :: '\n' :: rest => '\n' :: crlfToLf rest
  | c :: rest => c :: crlfToLf rest

def lookupSrc : List (Str × Str) → Str → Option Str
  | [], _ => none
  | (k, v) :: rest, p => if k = p then some v else lookupSrc rest p

def srcKeys (m : List (Str × Str)) : List Str := m.map (fun kv => kv.1)

/-- HashMap::insert on the sources map: replace or append. -/
def insertSrc : List (Str × Str) → Str → Str → List (Str × Str)
  | [], k, v => [(k, v)]
  | (a, b) :: rest, k, v =>
    if a = k then (a, v) :: rest else (a, b) :: insertSrc rest k v

/-- all_sources.extend(sources). -/
def extendSrcs (m es : List (Str × Str)) : List (Str × Str) :=
  es.foldl (fun a kv => insertSrc a kv.1 kv.2) m

/-- load_sources from main.rs: walk the DFS items, skip paths already in this
call's map, read and CRLF-normalize the rest.  The second component records
each filesystem read, in order. -/
def load_sources_aux (g : CachedStableGraph) (fs : Str → Option Str) :
    List (Nat × Option Nat) → List (Str × Str) → List Str →
    Except String (List (Str × Str) × List Str)
  | [], srcs, reads => .ok (srcs, reads)
  | n :: ns, srcs, reads =>
    let path := get_node g n.1
    if (lookupSrc srcs path).isSome then load_sources_aux g fs ns srcs reads
    else
      match fs path with
      | none => .error "error reading file"
      | some content =>
        load_sources_aux g fs ns (srcs ++ [(path, crlfToLf content)]) (reads ++ [path])

def load_sources (g : CachedStableGraph) (fs : Str → Option Str)
    (nodes : List (Nat × Option Nat)) : Except String (List (Str × Str) × List Str) :=
  load_sources_aux g fs nodes [] []

/-- HashMap::insert on the diagnostics map: replace or append. -/
def insertMap : DiagMap → Url → List Diagnostic → DiagMap
  | [], k, v => [(k, v)]
  | (a, b) :: rest, k, v =>
    if a = k then (a, v) :: rest else (a, b) :: insertMap rest k v

/-- diagnostics.extend(other): later keys replace earlier ones. -/
def extendMap (m es : DiagMap) : DiagMap :=
  es.foldl (fun a kv => insertMap a kv.1 kv.2) m

/-- diagnostics.entry(url).or_default(). -/
def entryOrDefault (m : DiagMap) (k : Url) : DiagMap :=
  match lookupMap m k with
  | some _ => m
  | none => m ++ [(k, [])]

/-- back_fill from lint: ensure every loaded path's URI is a key of the map;
the Url::from_file_path unwrap panics on a relative path. -/
def back_fill (sources : List (Str × Str)) (m : DiagMap) : Except String DiagMap :=
  match sources with
  | [] => .ok m
  | (p, _) :: rest =>
    match urlUnwrap p with
    | .error e => .error e
    | .ok u => back_fill rest (entryOrDefault m u)

inductive TreeType
  | Fragment
  | Vertex
  | Geometry
  | Compute
deriving DecidableEq, Repr

def treeTypeFromExt (ext : Str) : Option TreeType :=
  if ext = str "fsh" then some .Fragment
  else if ext = str "vsh" then some .Vertex
  else if ext = str "gsh" then some .Geometry
  else if ext = str "csh" then some .Compute
  else none

/-- The external validator (opengl.rs ShaderValidator::validate) as a
parameter: shader kind and merged text in, optional raw driver output out. -/
abbrev Validate := TreeType → Str → Option Str

/-- merge_views::generate_merge_list as a parameter: its output is handed to
the validator but never inspected by the properties verified here, so the
lint embedding is proved for every merge function. -/
abbrev Merge := List (Nat × Option Nat) → List (Str × Str) → CachedStableGraph → Str

/-- Observations a lint makes on the outside world: filesystem reads in order,
and one entry per validator invocation. -/
structure LintLog where
  reads : List Str
  validations : List (TreeType × Str)
deriving DecidableEq, Repr

/-- Modelled from the spec: dfs.rs converts a CycleError into the single
diagnostic reported for the triggering file (exact message and range are not
under src/). -/
def diagnosticFromCycle (_e : CycleError) : Diagnostic :=
  { range := ⟨⟨0, 0⟩, ⟨0, 1000⟩⟩
    severity := some DiagnosticSeverity.Error
    source := some SOURCE
    message := str "includes form a cycle" }

/-- Outcome of the per-root loop of lint's non-empty-ancestors branch. -/
inductive RootsOut
  | cycle (e : CycleError) (srcs : List (Str × Str)) (reads : List Str)
  | done (srcs : List (Str × Str)) (trees : List (TreeType × List (Nat × Option Nat)))
      (reads : List Str)
deriving Repr

/-- The first loop of lint's non-empty-ancestors branch: per root, DFS (a
cycle aborts the whole lint with a diagnostic), extension gate (a
non-shader root is skipped before any loading), then source loading
(an IO failure aborts with an error). -/
def lintRootsLoop (g : CachedStableGraph) (fs : Str → Option Str) :
    List Nat → List (Str × Str) → List (TreeType × List (Nat × Option Nat)) →
    List Str → Except String RootsOut
  | [], srcs, trees, reads => .ok (.done srcs trees reads)
  | r :: rest, srcs, trees, reads =>
    match get_dfs_for_node g r with
    | .error e => .ok (.cycle e srcs reads)
    | .ok nodes =>
      match extension? (get_node g r) with
      | none => lintRootsLoop g fs rest srcs trees reads
      | some ext =>
        match treeTypeFromExt ext with
        | none => lintRootsLoop g fs rest srcs trees reads
        | some tt =>
          match load_sources g fs nodes with
          | .error err => .error err
          | .ok (s2, rds) =>
            lintRootsLoop g fs rest (extendSrcs srcs s2) (trees ++ [(tt, nodes)])
              (reads ++ rds)

/-- The second loop of lint's non-empty-ancestors branch: merge, validate and
parse each collected tree, accumulating diagnostics and logging every
validator invocation. -/
def lintTreesLoop (g : CachedStableGraph) (validate : Validate) (merge : Merge)
    (uri : Str) (srcs : List (Str × Str)) :
    List (TreeType × List (Nat × Option Nat)) → DiagMap → List (TreeType × Str) →
    Except String (DiagMap × List (TreeType × Str))
  | [], m, vlog => .ok (m, vlog)
  | (tt, nodes) :: rest, m, vlog =>
    let view := merge nodes srcs g
    match validate tt view with
    | none => lintTreesLoop g validate merge uri srcs rest m (vlog ++ [(tt, view)])
    | some stdout =>
      match parse_validator_stdout uri stdout with
      | .error err => .error err
      | .ok parsed =>
        lintTreesLoop g validate merge uri srcs rest (extendMap m parsed)
          (vlog ++ [(tt, view)])

/-- lint from main.rs.  The filesystem, the validator and the merge engine are
parameters; the result carries the returned URI-to-diagnostics map together
with the observation log. -/
def lint (g : CachedStableGraph) (fs : Str → Option Str) (validate : Validate)
    (merge : Merge) (uri : Str) : Except String (DiagMap × LintLog) :=
  match find_node g uri with
  | none => .error "node not found"
  | some curr =>
    if (collect_root_ancestors g curr).isEmpty then
      match get_dfs_for_node g curr with
      | .error e =>
        match urlUnwrap uri with
        | .error err => .error err
        | .ok u => .ok ([(u, [diagnosticFromCycle e])], ⟨[], []⟩)
      | .ok tree =>
        match load_sources g fs tree with
        | .error err => .error err
        | .ok (srcs, reads) =>
          let view := merge tree srcs g
          match extension? (get_node g curr) with
          | none =>
            match back_fill srcs [] with
            | .error err => .error err
            | .ok m => .ok (m, ⟨reads, []⟩)
          | some ext =>
            match treeTypeFromExt ext with
            | none =>
              match back_fill srcs [] with
              | .error err => .error err
              | .ok m => .ok (m, ⟨reads, []⟩)
            | some tt =>
              match validate tt view with
              | none =>
                match back_fill srcs [] with
                | .error err => .error err
                | .ok m => .ok (m, ⟨reads, [(tt, view)]⟩)
              | some stdout =>
                match parse_validator_stdout uri stdout with
                | .error err => .error err
                | .ok parsed =>
                  match back_fill srcs (extendMap [] parsed) with
                  | .error err => .error err
                  | .ok m => .ok (m, ⟨reads, [(tt, view)]⟩)
    else
      match lintRootsLoop g fs (collect_root_ancestors g curr) [] [] [] with
      | .error err => .error err
      | .ok (.cycle e srcs reads) =>
        match urlUnwrap uri with
        | .error err => .error err
        | .ok u =>
          match back_fill srcs [(u, [diagnosticFromCycle e])] with
          | .error err => .error err
          | .ok m => .ok (m, ⟨reads, []⟩)
      | .ok (.done srcs trees reads) =>
        match lintTreesLoop g validate merge uri srcs trees [] [] with
        | .error err => .error err
        | .ok (m0, vlog) =>
          match back_fill srcs m0 with
          | .error err => .error err
          | .ok m => .ok (m, ⟨reads, vlog⟩)

/-! ### The LSP handler surface -/

/-- The request-answering LSP operations of the LanguageServerHandling
implementation (notifications carry no reply and are not listed). -/
inductive LspRequest
  | init
  | shutdownReq
  | completion
  | resolveCompletionItem
  | hover
  | signatureHelp
  | gotoDefinition
  | references
  | documentHighlight
  | documentSymbols
  | workspaceSymbols
  | codeAction
  | codeLens
  | codeLensResolve
  | documentLink
  | documentLinkResolve
  | formatting
  | rangeFormatting
  | onTypeFormatting
  | rename
  | executeCommand
deriving DecidableEq, Repr

/-- What a handler does with its completable: fail with
error_not_available, complete normally, or never complete at all. -/
inductive LspResponse
  | errNotAvailable
  | completed
  | noResponse
deriving DecidableEq, Repr

/-- The server state the handlers can touch. -/
structure ServerState where
  graph : CachedStableGraph
  root : Str
deriving DecidableEq, Repr

/-- The response behaviour of each request handler in main.rs, paired with the
state it leaves behind.  hover waits on the startup latch and returns without
completing its completable; initialize, executeCommand and documentLink are
the implemented requests; shutdown completes successfully; every other
handler body is a single completable.complete(Err(error_not_available())). -/
def handleRequest (r : LspRequest) (s : ServerState) : ServerState × LspResponse :=
  match r with
  | .init => ({ s with root := s.root }, .completed)
  | .shutdownReq => (s, .completed)
  | .hover => (s, .noResponse)
  | .executeCommand => (s, .completed)
  | .documentLink => (s, .completed)
  | _ => (s, .errNotAvailable)

/-- The requests the spec's minimal implemented set contains. -/
def minimalRequests : List LspRequest :=
  [.init, .executeCommand, .documentLink]

instance {ε α : Type} [DecidableEq ε] [DecidableEq α] : DecidableEq (Except ε α) := fun x y =>
  match x, y with
  | .error a, .error b =>
    if h : a = b then isTrue (by rw [h]) else isFalse (fun hc => by cases hc; exact h rfl)
  | .error _, .ok _ => isFalse (fun hc => by cases hc)
  | .ok _, .error _ => isFalse (fun hc => by cases hc)
  | .ok a, .ok b =>
    if h : a = b then isTrue (by rw [h]) else isFalse (fun hc => by cases hc; exact h rfl)

/-! ### Fixtures used by the concrete theorems below -/

/-- A validator whose driver never runs. -/
def vNone : Validate := fun _ _ => none

/-- A merge function returning the empty buffer (lint's verified properties
hold for every merge function; this one is used for concrete runs). -/
def mEmpty : Merge := fun _ _ _ => []

def s0 : ServerState := { graph := { nodes := [], edges := [] }, root := [] }

def c3Graph : CachedStableGraph :=
  { nodes := [str "/w/shaders/a.fsh", str "/w/shaders/c.glsl"], edges := [] }

def c3Includes : List (Str × IncludePosition) :=
  [(str "/w/shaders/c.glsl", ⟨0, 10, 16⟩), (str "/w/shaders/c.glsl", ⟨1, 10, 16⟩)]

def c7Graph : CachedStableGraph :=
  { nodes := [str "/w/shaders/r1.fsh", str "/w/shaders/r2.fsh", str "/w/shaders/c.glsl"]
    edges := [(0, 2, ⟨0, 10, 16⟩), (1, 2, ⟨1, 10, 16⟩)] }

def c7Fs : Str → Option Str := fun p =>
  if p = str "/w/shaders/r1.fsh" then some (str "#include \"c.glsl\"\n")
  else if p = str "/w/shaders/r2.fsh" then some (str "x\n#include \"c.glsl\"\n")
  else if p = str "/w/shaders/c.glsl" then some (str "int x;\n")
  else none

/-! ### C1 and C9: the linenum-minus-2 computation -/

/-- C1: on a driver line matching the diagnostic grammar whose linenum does
not parse as u32, the fallback 0 still gets 2 subtracted: the emitted
diagnostic sits at the u32-wrapped line 4294967294, not at line 0 as the
claim states (a debug build panics on the subtraction instead). -/
theorem parse_failure_line_is_not_zero :
    parse_validator_stdout (str "/w/shaders/a.fsh")
        (str "0(4294967296) : error C0001: oops") =
      .ok [(⟨str "/w/shaders/a.fsh"⟩,
        [{ range := ⟨⟨4294967294, 0⟩, ⟨4294967294, 1000⟩⟩
           severity := some DiagnosticSeverity.Error
           source := some SOURCE
           message := str "oops" }])] ∧
      parseU32 (str "4294967296") = none ∧
      diagnosticLineNumber (str "4294967296") ≠ 0 := by
  decide

/-- C9: the line-number computation underflows the unsigned type for reported
linenums 0 and 1, which the diagnostic grammar admits: release semantics
wrap to 4294967294 and 4294967295 instead of a meaningful non-negative line,
and a debug build panics. -/
theorem diagnostic_linenum_underflows :
    diagnosticLineNumber (str "0") = 4294967294 ∧
      diagnosticLineNumber (str "1") = 4294967295 ∧
      matchDiagnostic (str "0(1) : error C0000: version error") =
        some (str "0", str "1", str "error", str "version error") := by
  decide

/-! ### C3: the update_includes edge diff -/

/-- C3: updating a file whose scan holds the same child path at two distinct
positions adds the first position twice — the insertion loop re-looks-up each
pending pair in the scanned list by child path alone — so the outgoing edge
multiset does not equal the scanned include set. -/
theorem update_includes_duplicate_child_mismatch :
    child_node_meta (update_includes c3Graph (str "/w/shaders/a.fsh") c3Includes) 0 =
        [(str "/w/shaders/c.glsl", ⟨0, 10, 16⟩), (str "/w/shaders/c.glsl", ⟨0, 10, 16⟩)] ∧
      ¬ (child_node_meta (update_includes c3Graph (str "/w/shaders/a.fsh") c3Includes) 0).Perm
          c3Includes := by
  decide

/-! ### C5: the include extraction rule -/

/-- The spec's extraction rule, written from its words: a line is an include
iff it matches the pattern anchored at both the line start and the line end
(optional whitespace, the include literal, a nonempty capture, the closing
quote, an optional CR, then end of line). -/
def specAnchoredIncludeMatch (line : Str) : Option Str :=
  let ws := line.takeWhile Char.isWhitespace
  match expectStr includeLit (line.drop ws.length) with
  | none => none
  | some rest =>
    let rest' :=
      match rest.getLast? with
      | some '\r' => rest.dropLast
      | _ => rest
    match rest'.getLast? with
    | some '"' =>
      let cap := rest'.dropLast
      if cap.isEmpty then none
      else if cap.contains '\n' then none
      else some cap
    | _ => none

/-- C5 counterexample: a line with trailing content after the closing quote is
extracted by RE_INCLUDE all the same — the compiled pattern has no end
anchor — while the spec's anchored pattern rejects it. -/
theorem include_regex_accepts_trailing_content :
    matchInclude (str "#include \"a.glsl\" foo") = some (str "a.glsl", 10, 16) ∧
      specAnchoredIncludeMatch (str "#include \"a.glsl\" foo") = none := by
  decide

/-! ### C7 counterexample: per-call rather than per-lint read memoization -/

/-- Occurrence count of a path in a read log. -/
def countOcc (p : Str) : List Str → Nat
  | [] => 0
  | q :: rest => (if q = p then 1 else 0) + countOcc p rest

/-- C7 counterexample: linting a library file included by two shader roots
reads that file once per root — load_sources starts from a fresh map on every
call — so the same file is read from disk twice in one lint. -/
theorem lint_reads_shared_file_twice :
    (lint c7Graph c7Fs vNone mEmpty (str "/w/shaders/c.glsl")).map
        (fun r => countOcc (str "/w/shaders/c.glsl") r.2.reads) = .ok 2 := by
  decide

/-! ### C8: the unimplemented LSP surface -/

/-- C8 counterexample: the hover handler waits on the startup latch and
returns without ever completing its request, rather than failing with the
not-available error the claim requires for operations outside the minimal
set. -/
theorem hover_gives_no_response :
    handleRequest .hover s0 = (s0, .noResponse) ∧
      ¬ LspRequest.hover ∈ minimalRequests ∧
      (handleRequest .hover s0).2 ≠ .errNotAvailable := by
  decide

/-- C8 (amended): every request handler outside the implemented minimal set —
other than hover, which blocks on the latch and never responds, and the
shutdown lifecycle request, which completes successfully — fails with the
not-available error and leaves the server state untouched. -/
theorem unimplemented_requests_fail_without_mutation (r : LspRequest) (s : ServerState)
    (h : ¬ r ∈ minimalRequests) (hh : r ≠ .hover) (hs : r ≠ .shutdownReq) :
    handleRequest r s = (s, .errNotAvailable) := by
  cases r
  case init => exact absurd (by decide) h
  case executeCommand => exact absurd (by decide) h
  case documentLink => exact absurd (by decide) h
  case hover => exact absurd rfl hh
  case shutdownReq => exact absurd rfl hs
  all_goals rfl

/-- Witness for the amended C8 theorem at the completion request. -/
theorem unimplemented_requests_fail_witness :
    ¬ LspRequest.completion ∈ minimalRequests ∧ LspRequest.completion ≠ .hover ∧
      LspRequest.completion ≠ .shutdownReq ∧
      handleRequest .completion s0 = (s0, .errNotAvailable) :=
  ⟨by decide, by decide, by decide,
    unimplemented_requests_fail_without_mutation .completion s0 (by decide) (by decide)
      (by decide)⟩

/-! ### C10: URI conversion in the diagnostic parser -/

theorem urlUnwrap_ok_abs (p : Str) (h : isAbsolute p = true) : urlUnwrap p = .ok ⟨p⟩ := by
  simp [urlUnwrap, Url.fromFilePath, h]

theorem urlUnwrap_err_rel (p : Str) (h : isAbsolute p = false) :
    urlUnwrap p = .error "panic: Url::from_file_path failed on a relative path" := by
  simp [urlUnwrap, Url.fromFilePath, h]

theorem urlUnwrap_ok_imp_abs (p : Str) (u : Url) (h : urlUnwrap p = .ok u) :
    isAbsolute p = true := by
  cases hab : isAbsolute p with
  | true => rfl
  | false => rw [urlUnwrap_err_rel p hab] at h; exact Except.noConfusion h

theorem parse_lines_ok_filepaths_abs (uri : Str) (lines : List Str) :
    ∀ (m0 m : DiagMap),
      parse_validator_stdout_lines uri lines m0 = .ok m →
      ∀ line ∈ lines, ∀ fp ln sev out,
        matchDiagnostic line = some (fp, ln, sev, out) → fp ≠ str "0" →
        isAbsolute fp = true := by
  induction lines with
  | nil => intro m0 m hok line hmem; cases hmem
  | cons l rest ih =>
    intro m0 m hok line hmem fp ln sev out hmatch hfp
    rcases List.mem_cons.mp hmem with hl | hr
    · subst hl
      simp only [parse_validator_stdout_lines, hmatch] at hok
      rw [if_neg hfp] at hok
      cases hu : urlUnwrap fp with
      | error e => simp only [hu] at hok; exact Except.noConfusion hok
      | ok u => exact urlUnwrap_ok_imp_abs fp u hu
    · cases hml : matchDiagnostic l with
      | none =>
        simp only [parse_validator_stdout_lines, hml] at hok
        exact ih _ m hok line hr fp ln sev out hmatch hfp
      | some q =>
        obtain ⟨fp0, ln0, sev0, out0⟩ := q
        simp only [parse_validator_stdout_lines, hml] at hok
        cases hu : urlUnwrap (if fp0 = str "0" then uri else fp0) with
        | error e => simp only [hu] at hok; exact Except.noConfusion hok
        | ok u =>
          simp only [hu] at hok
          exact ih _ m hok line hr fp ln sev out hmatch hfp

theorem parse_lines_bad_filepath_errors (uri : Str) (lines : List Str) :
    ∀ (m0 : DiagMap) (line : Str), line ∈ lines →
      ∀ fp ln sev out, matchDiagnostic line = some (fp, ln, sev, out) →
        fp ≠ str "0" → isAbsolute fp = false →
        ∀ m, parse_validator_stdout_lines uri lines m0 ≠ .ok m := by
  induction lines with
  | nil => intro m0 line hmem; cases hmem
  | cons l rest ih =>
    intro m0 line hmem fp ln sev out hmatch hfp hrel m hok
    rcases List.mem_cons.mp hmem with hl | hr
    · subst hl
      simp only [parse_validator_stdout_lines, hmatch] at hok
      rw [if_neg hfp] at hok
      simp only [urlUnwrap_err_rel fp hrel] at hok
      exact Except.noConfusion hok
    · cases hml : matchDiagnostic l with
      | none =>
        simp only [parse_validator_stdout_lines, hml] at hok
        exact ih _ line hr fp ln sev out hmatch hfp hrel m hok
      | some q =>
        obtain ⟨fp0, ln0, sev0, out0⟩ := q
        simp only [parse_validator_stdout_lines, hml] at hok
        cases hu : urlUnwrap (if fp0 = str "0" then uri else fp0) with
        | error e => simp only [hu] at hok; exact Except.noConfusion hok
        | ok u =>
          simp only [hu] at hok
          exact ih _ line hr fp ln sev out hmatch hfp hrel m hok

/-- C10: for every matched driver line whose filepath capture is not the
literal "0", the conversion to a file URI succeeds only if that filepath is
absolute: a successful parse implies every such filepath was absolute, and a
matched relative filepath makes the conversion's unwrap panic, so no
diagnostic map is produced. -/
theorem parse_stdout_filepath_absoluteness (uri stdout : Str) :
    (∀ m, parse_validator_stdout uri stdout = .ok m →
      ∀ line ∈ splitOnChar '\n' stdout, ∀ fp ln sev out,
        matchDiagnostic line = some (fp, ln, sev, out) → fp ≠ str "0" →
        isAbsolute fp = true) ∧
    (∀ line ∈ splitOnChar '\n' stdout, ∀ fp ln sev out,
      matchDiagnostic line = some (fp, ln, sev, out) → fp ≠ str "0" →
      isAbsolute fp = false →
      (parse_validator_stdout uri stdout).toOption = none) := by
  constructor
  · intro m hok line hmem fp ln sev out hmatch hfp
    exact parse_lines_ok_filepaths_abs uri (splitOnChar '\n' stdout) [] m hok line hmem
      fp ln sev out hmatch hfp
  · intro line hmem fp ln sev out hmatch hfp hrel
    cases hres : parse_validator_stdout uri stdout with
    | error e => rfl
    | ok m =>
      exact absurd hres
        (parse_lines_bad_filepath_errors uri (splitOnChar '\n' stdout) [] line hmem
          fp ln sev out hmatch hfp hrel m)

/-- Witness for the C10 theorem: a matched relative filepath aborts the parse. -/
theorem parse_stdout_filepath_absoluteness_witness :
    (str "foo.glsl(5) : error C0001: x") ∈
        splitOnChar '\n' (str "foo.glsl(5) : error C0001: x") ∧
      matchDiagnostic (str "foo.glsl(5) : error C0001: x") =
        some (str "foo.glsl", str "5", str "error", str "x") ∧
      (parse_validator_stdout (str "/w/a.fsh") (str "foo.glsl(5) : error C0001: x")).toOption =
        none :=
  ⟨by decide, by decide,
    (parse_stdout_filepath_absoluteness (str "/w/a.fsh")
        (str "foo.glsl(5) : error C0001: x")).2
      (str "foo.glsl(5) : error C0001: x") (by decide) (str "foo.glsl") (str "5")
      (str "error") (str "x") (by decide) (by decide) (by decide)⟩

/-! ### Map and back-fill lemmas -/

theorem urlUnwrap_ok_val (p : Str) (u : Url) (h : urlUnwrap p = .ok u) : u = Url.mk p := by
  cases hab : isAbsolute p with
  | true =>
    rw [urlUnwrap_ok_abs p hab] at h
    injection h with h
    exact h.symm
  | false => rw [urlUnwrap_err_rel p hab] at h; exact Except.noConfusion h

theorem lookupMap_append (a b : DiagMap) (k : Url) :
    lookupMap (a ++ b) k =
      match lookupMap a k with
      | some v => some v
      | none => lookupMap b k := by
  induction a with
  | nil => rfl
  | cons kv rest ih =>
    obtain ⟨k0, v0⟩ := kv
    by_cases h : k0 = k
    · simp [lookupMap, h]
    · simp [lookupMap, h, ih]

theorem entryOrDefault_cases (mp : DiagMap) (u k : Url) :
    lookupMap (entryOrDefault mp u) k = lookupMap mp k ∨
      (lookupMap mp k = none ∧ lookupMap (entryOrDefault mp u) k = some []) := by
  unfold entryOrDefault
  cases hu : lookupMap mp u with
  | some v => exact Or.inl rfl
  | none =>
    show lookupMap (mp ++ [(u, [])]) k = lookupMap mp k ∨
      (lookupMap mp k = none ∧ lookupMap (mp ++ [(u, [])]) k = some [])
    rw [lookupMap_append]
    cases hk : lookupMap mp k with
    | some v => exact Or.inl rfl
    | none =>
      by_cases he : u = k
      · subst he
        exact Or.inr ⟨rfl, by simp [lookupMap]⟩
      · exact Or.inl (by simp [lookupMap, he])

theorem entryOrDefault_self_isSome (mp : DiagMap) (u : Url) :
    (lookupMap (entryOrDefault mp u) u).isSome = true := by
  unfold entryOrDefault
  cases hu : lookupMap mp u with
  | some v =>
    show (lookupMap mp u).isSome = true
    rw [hu]
    rfl
  | none =>
    show (lookupMap (mp ++ [(u, [])]) u).isSome = true
    rw [lookupMap_append, hu]
    simp [lookupMap]

theorem back_fill_preserve (srcs : List (Str × Str)) :
    ∀ (mp m' : DiagMap) (k : Url), back_fill srcs mp = .ok m' →
      (lookupMap mp k).isSome = true → lookupMap m' k = lookupMap mp k := by
  induction srcs with
  | nil =>
    intro mp m' k hok hs
    injection hok with h
    rw [← h]
  | cons pv rest ih =>
    intro mp m' k hok hs
    obtain ⟨p, v⟩ := pv
    simp only [back_fill] at hok
    cases huw : urlUnwrap p with
    | error e => simp only [huw] at hok; exact Except.noConfusion hok
    | ok u =>
      simp only [huw] at hok
      rcases entryOrDefault_cases mp u k with hsame | ⟨hnone, _⟩
      · rw [ih (entryOrDefault mp u) m' k hok (by rw [hsame]; exact hs), hsame]
      · rw [hnone] at hs; exact absurd hs (by simp)

theorem back_fill_isSome_preserve (srcs : List (Str × Str)) (mp m' : DiagMap) (k : Url)
    (hok : back_fill srcs mp = .ok m') (hs : (lookupMap mp k).isSome = true) :
    (lookupMap m' k).isSome = true := by
  rw [back_fill_preserve srcs mp m' k hok hs]; exact hs

theorem srcKeys_cons (kv : Str × Str) (l : List (Str × Str)) :
    srcKeys (kv :: l) = kv.1 :: srcKeys l := rfl

theorem back_fill_covers (srcs : List (Str × Str)) :
    ∀ (mp m' : DiagMap) (p : Str), back_fill srcs mp = .ok m' → p ∈ srcKeys srcs →
      (lookupMap m' ⟨p⟩).isSome = true := by
  induction srcs with
  | nil => intro mp m' p hok hmem; cases hmem
  | cons pv rest ih =>
    intro mp m' p hok hmem
    obtain ⟨p0, v⟩ := pv
    simp only [back_fill] at hok
    cases huw : urlUnwrap p0 with
    | error e => simp only [huw] at hok; exact Except.noConfusion hok
    | ok u =>
      simp only [huw] at hok
      rw [srcKeys_cons] at hmem
      rcases List.mem_cons.mp hmem with he | hr
      · subst he
        have hu : u = Url.mk p := urlUnwrap_ok_val p u huw
        subst hu
        exact back_fill_isSome_preserve rest _ m' ⟨p⟩ hok
          (entryOrDefault_self_isSome mp ⟨p⟩)
      · exact ih _ m' p hok hr

theorem back_fill_cases (srcs : List (Str × Str)) :
    ∀ (mp m' : DiagMap) (k : Url), back_fill srcs mp = .ok m' →
      lookupMap m' k = lookupMap mp k ∨ lookupMap m' k = some [] := by
  induction srcs with
  | nil =>
    intro mp m' k hok
    injection hok with h
    rw [← h]
    exact Or.inl rfl
  | cons pv rest ih =>
    intro mp m' k hok
    obtain ⟨p0, v⟩ := pv
    simp only [back_fill] at hok
    cases huw : urlUnwrap p0 with
    | error e => simp only [huw] at hok; exact Except.noConfusion hok
    | ok u =>
      simp only [huw] at hok
      rcases ih (entryOrDefault mp u) m' k hok with h1 | h1
      · rcases entryOrDefault_cases mp u k with h2 | ⟨_, h2⟩
        · exact Or.inl (h1.trans h2)
        · exact Or.inr (h1.trans h2)
      · exact Or.inr h1

theorem back_fill_total (srcs : List (Str × Str)) :
    ∀ (mp : DiagMap), (∀ p ∈ srcKeys srcs, isAbsolute p = true) →
      ∃ m', back_fill srcs mp = .ok m' := by
  induction srcs with
  | nil => intro mp _; exact ⟨mp, rfl⟩
  | cons pv rest ih =>
    intro mp habs
    obtain ⟨p0, v⟩ := pv
    have h0 : isAbsolute p0 = true :=
      habs p0 (by rw [srcKeys_cons]; exact List.mem_cons_self _ _)
    obtain ⟨m', hm'⟩ := ih (entryOrDefault mp ⟨p0⟩)
      (fun p hp => habs p (by rw [srcKeys_cons]; exact List.mem_cons_of_mem _ hp))
    refine ⟨m', ?_⟩
    simp only [back_fill, urlUnwrap_ok_abs p0 h0]
    exact hm'

/-! ### Source-map and load_sources lemmas -/

theorem lookupSrc_append (a b : List (Str × Str)) (p : Str) :
    lookupSrc (a ++ b) p =
      match lookupSrc a p with
      | some v => some v
      | none => lookupSrc b p := by
  induction a with
  | nil => rfl
  | cons kv rest ih =>
    obtain ⟨k0, v0⟩ := kv
    by_cases h : k0 = p
    · simp [lookupSrc, h]
    · simp [lookupSrc, h, ih]

theorem lookupSrc_isSome_of_mem (m : List (Str × Str)) (p : Str) :
    p ∈ srcKeys m → (lookupSrc m p).isSome = true := by
  induction m with
  | nil => intro h; cases h
  | cons kv rest ih =>
    intro h
    obtain ⟨k0, v0⟩ := kv
    rw [srcKeys_cons] at h
    by_cases he : k0 = p
    · simp [lookupSrc, he]
    · rcases List.mem_cons.mp h with h1 | h1
      · exact absurd h1.symm he
      · simp only [lookupSrc, if_neg he]
        exact ih h1

theorem load_sources_aux_inv (g : CachedStableGraph) (fs : Str → Option Str) :
    ∀ (nodes : List (Nat × Option Nat)) (srcs0 : List (Str × Str)) (reads0 : List Str)
      (out : List (Str × Str) × List Str),
      load_sources_aux g fs nodes srcs0 reads0 = .ok out →
      (∀ p ∈ reads0, p ∈ srcKeys srcs0) →
      (∀ p ∈ out.2, p ∈ srcKeys out.1) ∧
      (∀ p ∈ srcKeys out.1, p ∈ srcKeys srcs0 ∨ ∃ n ∈ nodes, p = get_node g n.1) := by
  intro nodes
  induction nodes with
  | nil =>
    intro srcs0 reads0 out hok hsub
    injection hok with h
    subst h
    exact ⟨hsub, fun p hp => Or.inl hp⟩
  | cons n ns ih =>
    intro srcs0 reads0 out hok hsub
    simp only [load_sources_aux] at hok
    by_cases hmem : (lookupSrc srcs0 (get_node g n.1)).isSome = true
    · rw [if_pos hmem] at hok
      obtain ⟨hA, hB⟩ := ih srcs0 reads0 out hok hsub
      refine ⟨hA, fun p hp => ?_⟩
      rcases hB p hp with h1 | ⟨n', hn', h2⟩
      · exact Or.inl h1
      · exact Or.inr ⟨n', List.mem_cons_of_mem _ hn', h2⟩
    · rw [if_neg hmem] at hok
      cases hfs : fs (get_node g n.1) with
      | none => simp only [hfs] at hok; exact Except.noConfusion hok
      | some content =>
        simp only [hfs] at hok
        have hsub' : ∀ p ∈ reads0 ++ [get_node g n.1],
            p ∈ srcKeys (srcs0 ++ [(get_node g n.1, crlfToLf content)]) := by
          intro p hp
          rw [srcKeys, List.map_append]
          rcases List.mem_append.mp hp with h1 | h1
          · exact List.mem_append.mpr (Or.inl (hsub p h1))
          · exact List.mem_append.mpr (Or.inr (by simpa using h1))
        obtain ⟨hA, hB⟩ := ih _ _ out hok hsub'
        refine ⟨hA, fun p hp => ?_⟩
        rcases hB p hp with h1 | ⟨n', hn', h2⟩
        · rw [srcKeys, List.map_append] at h1
          rcases List.mem_append.mp h1 with h2 | h2
          · exact Or.inl h2
          · refine Or.inr ⟨n, List.mem_cons_self _ _, ?_⟩
            simpa using h2
        · exact Or.inr ⟨n', List.mem_cons_of_mem _ hn', h2⟩

theorem load_sources_inv (g : CachedStableGraph) (fs : Str → Option Str)
    (nodes : List (Nat × Option Nat)) (srcs : List (Str × Str)) (reads : List Str)
    (hok : load_sources g fs nodes = .ok (srcs, reads)) :
    (∀ p ∈ reads, p ∈ srcKeys srcs) ∧
    (∀ p ∈ srcKeys srcs, ∃ n ∈ nodes, p = get_node g n.1) := by
  obtain ⟨hA, hB⟩ := load_sources_aux_inv g fs nodes [] [] (srcs, reads) hok
    (by intro q hq; cases hq)
  refine ⟨hA, fun p hp => ?_⟩
  rcases hB p hp with h1 | h1
  · cases h1
  · exact h1

theorem load_sources_aux_nodup (g : CachedStableGraph) (fs : Str → Option Str) :
    ∀ (nodes : List (Nat × Option Nat)) (srcs0 : List (Str × Str)) (reads0 : List Str)
      (out : List (Str × Str) × List Str),
      load_sources_aux g fs nodes srcs0 reads0 = .ok out →
      reads0.Nodup → (∀ p ∈ reads0, p ∈ srcKeys srcs0) → out.2.Nodup := by
  intro nodes
  induction nodes with
  | nil =>
    intro srcs0 reads0 out hok hnd hsub
    injection hok with h
    subst h
    exact hnd
  | cons n ns ih =>
    intro srcs0 reads0 out hok hnd hsub
    simp only [load_sources_aux] at hok
    by_cases hmem : (lookupSrc srcs0 (get_node g n.1)).isSome = true
    · rw [if_pos hmem] at hok
      exact ih srcs0 reads0 out hok hnd hsub
    · rw [if_neg hmem] at hok
      cases hfs : fs (get_node g n.1) with
      | none => simp only [hfs] at hok; exact Except.noConfusion hok
      | some content =>
        simp only [hfs] at hok
        have hnotin : ¬ get_node g n.1 ∈ reads0 := by
          intro hc
          exact hmem (lookupSrc_isSome_of_mem srcs0 _ (hsub _ hc))
        have hnd' : (reads0 ++ [get_node g n.1]).Nodup := by
          rw [List.nodup_append]
          exact ⟨hnd, List.nodup_singleton _, by
            intro a ha hb
            rw [List.mem_singleton] at hb
            subst hb
            exact hnotin ha⟩
        have hsub' : ∀ p ∈ reads0 ++ [get_node g n.1],
            p ∈ srcKeys (srcs0 ++ [(get_node g n.1, crlfToLf content)]) := by
          intro p hp
          rw [srcKeys, List.map_append]
          rcases List.mem_append.mp hp with h1 | h1
          · exact List.mem_append.mpr (Or.inl (hsub p h1))
          · exact List.mem_append.mpr (Or.inr (by simpa using h1))
        exact ih _ _ out hok hnd' hsub'

theorem countOcc_eq_zero (p : Str) (l : List Str) (h : ¬ p ∈ l) : countOcc p l = 0 := by
  induction l with
  | nil => rfl
  | cons q rest ih =>
    have hq : ¬ q = p := fun hc => h (hc ▸ List.mem_cons_self _ _)
    simp only [countOcc, if_neg hq, Nat.zero_add]
    exact ih (fun hc => h (List.mem_cons_of_mem _ hc))

theorem nodup_countOcc_le_one (p : Str) (l : List Str) (h : l.Nodup) : countOcc p l ≤ 1 := by
  induction l with
  | nil => exact Nat.zero_le 1
  | cons q rest ih =>
    obtain ⟨hq, hrest⟩ := List.nodup_cons.mp h
    by_cases he : q = p
    · subst he
      simp only [countOcc, if_pos rfl, countOcc_eq_zero q rest hq]
      simp
    · simp only [countOcc, if_neg he, Nat.zero_add]
      exact ih hrest

/-- C7 (amended): within one load_sources call each file is read from disk at
most once; the memoization is per call — that is per root traversal — not per
lint, so a file shared by the traversals of several roots is read once per
qualifying root. -/
theorem load_sources_reads_each_file_once (g : CachedStableGraph) (fs : Str → Option Str)
    (nodes : List (Nat × Option Nat)) (srcs : List (Str × Str)) (reads : List Str)
    (h : load_sources g fs nodes = .ok (srcs, reads)) (p : Str) :
    countOcc p reads ≤ 1 := by
  have hnd : reads.Nodup := load_sources_aux_nodup g fs nodes [] [] (srcs, reads) h
    List.nodup_nil (by intro q hq; cases hq)
  exact nodup_countOcc_le_one p reads hnd

/-- Witness for the amended C7 theorem: one root traversal reads each of its
two files once. -/
theorem load_sources_reads_each_file_once_witness :
    load_sources c7Graph c7Fs [(0, none), (2, some 0)] =
        .ok ([(str "/w/shaders/r1.fsh", str "#include \"c.glsl\"\n"),
              (str "/w/shaders/c.glsl", str "int x;\n")],
             [str "/w/shaders/r1.fsh", str "/w/shaders/c.glsl"]) ∧
      countOcc (str "/w/shaders/c.glsl")
          [str "/w/shaders/r1.fsh", str "/w/shaders/c.glsl"] ≤ 1 :=
  ⟨by decide,
    load_sources_reads_each_file_once c7Graph c7Fs [(0, none), (2, some 0)]
      [(str "/w/shaders/r1.fsh", str "#include \"c.glsl\"\n"),
       (str "/w/shaders/c.glsl", str "int x;\n")]
      [str "/w/shaders/r1.fsh", str "/w/shaders/c.glsl"] (by decide)
      (str "/w/shaders/c.glsl")⟩

/-! ### extendSrcs key lemmas -/

theorem insertSrc_keys_super (m : List (Str × Str)) (k v : Str) :
    ∀ q ∈ srcKeys m, q ∈ srcKeys (insertSrc m k v) := by
  induction m with
  | nil => intro q hq; cases hq
  | cons ab rest ih =>
    intro q hq
    obtain ⟨a, b⟩ := ab
    rw [srcKeys_cons] at hq
    simp only [insertSrc]
    by_cases he : a = k
    · rw [if_pos he, srcKeys_cons]
      exact hq
    · rw [if_neg he, srcKeys_cons]
      rcases List.mem_cons.mp hq with h1 | h1
      · exact List.mem_cons.mpr (Or.inl h1)
      · exact List.mem_cons_of_mem _ (ih q h1)

theorem insertSrc_keys_self (m : List (Str × Str)) (k v : Str) :
    k ∈ srcKeys (insertSrc m k v) := by
  induction m with
  | nil => exact List.mem_cons_self _ _
  | cons ab rest ih =>
    obtain ⟨a, b⟩ := ab
    simp only [insertSrc]
    by_cases he : a = k
    · rw [if_pos he, srcKeys_cons]
      exact List.mem_cons.mpr (Or.inl he.symm)
    · rw [if_neg he, srcKeys_cons]
      exact List.mem_cons_of_mem _ ih

theorem insertSrc_keys_sub (m : List (Str × Str)) (k v : Str) :
    ∀ q ∈ srcKeys (insertSrc m k v), q = k ∨ q ∈ srcKeys m := by
  induction m with
  | nil =>
    intro q hq
    rw [show insertSrc [] k v = [(k, v)] from rfl, srcKeys_cons] at hq
    rcases List.mem_cons.mp hq with h1 | h1
    · exact Or.inl h1
    · cases h1
  | cons ab rest ih =>
    intro q hq
    obtain ⟨a, b⟩ := ab
    simp only [insertSrc] at hq
    by_cases he : a = k
    · rw [if_pos he, srcKeys_cons] at hq
      rcases List.mem_cons.mp hq with h1 | h1
      · exact Or.inr (by rw [srcKeys_cons]; exact List.mem_cons.mpr (Or.inl h1))
      · exact Or.inr (by rw [srcKeys_cons]; exact List.mem_cons_of_mem _ h1)
    · rw [if_neg he, srcKeys_cons] at hq
      rcases List.mem_cons.mp hq with h1 | h1
      · exact Or.inr (by rw [srcKeys_cons]; exact List.mem_cons.mpr (Or.inl h1))
      · rcases ih q h1 with h2 | h2
        · exact Or.inl h2
        · exact Or.inr (by rw [srcKeys_cons]; exact List.mem_cons_of_mem _ h2)

theorem extendSrcs_keys_left (b : List (Str × Str)) :
    ∀ (a : List (Str × Str)) (q : Str), q ∈ srcKeys a → q ∈ srcKeys (extendSrcs a b) := by
  induction b with
  | nil => intro a q h; exact h
  | cons kv rest ih =>
    intro a q h
    exact ih _ q (insertSrc_keys_super a kv.1 kv.2 q h)

theorem extendSrcs_keys_right (b : List (Str × Str)) :
    ∀ (a : List (Str × Str)) (q : Str), q ∈ srcKeys b → q ∈ srcKeys (extendSrcs a b) := by
  induction b with
  | nil => intro a q h; cases h
  | cons kv rest ih =>
    intro a q h
    rw [srcKeys_cons] at h
    rcases List.mem_cons.mp h with h1 | h1
    · subst h1
      exact extendSrcs_keys_left rest _ _ (insertSrc_keys_self a kv.1 kv.2)
    · exact ih _ q h1

theorem extendSrcs_keys_sub (b : List (Str × Str)) :
    ∀ (a : List (Str × Str)) (q : Str), q ∈ srcKeys (extendSrcs a b) →
      q ∈ srcKeys a ∨ q ∈ srcKeys b := by
  induction b with
  | nil => intro a q h; exact Or.inl h
  | cons kv rest ih =>
    intro a q h
    rcases ih _ q h with h1 | h1
    · rcases insertSrc_keys_sub a kv.1 kv.2 q h1 with h2 | h2
      · exact Or.inr (by rw [srcKeys_cons]; exact List.mem_cons.mpr (Or.inl h2))
      · exact Or.inl h2
    · exact Or.inr (by rw [srcKeys_cons]; exact List.mem_cons_of_mem _ h1)

/-! ### Graph well-formedness and DFS index validity -/

/-- Every edge endpoint indexes a node. -/
def graphWF (g : CachedStableGraph) : Bool :=
  g.edges.all (fun e => decide (e.1 < g.nodes.length) && decide (e.2.1 < g.nodes.length))

theorem graphWF_edges (g : CachedStableGraph) (hwf : graphWF g = true) :
    ∀ e ∈ g.edges, e.1 < g.nodes.length ∧ e.2.1 < g.nodes.length := by
  intro e he
  have := List.all_eq_true.mp hwf e he
  simp only [Bool.and_eq_true, decide_eq_true_eq] at this
  exact this

theorem child_node_indexes_valid (g : CachedStableGraph) (hwf : graphWF g = true) (n : Nat) :
    ∀ c ∈ child_node_indexes g n, c < g.nodes.length := by
  intro c hc
  obtain ⟨e, he, hec⟩ := List.mem_map.mp hc
  have hmem : e ∈ g.edges := List.mem_of_mem_filter he
  rw [← hec]
  exact (graphWF_edges g hwf e hmem).2

theorem parent_node_indexes_valid (g : CachedStableGraph) (hwf : graphWF g = true) (c : Nat) :
    ∀ q ∈ parent_node_indexes g c, q < g.nodes.length := by
  intro q hq
  obtain ⟨e, he, heq⟩ := List.mem_map.mp hq
  have hmem : e ∈ g.edges := List.mem_of_mem_filter he
  rw [← heq]
  exact (graphWF_edges g hwf e hmem).1

theorem dfsRun_valid (g : CachedStableGraph) (hwf : graphWF g = true) :
    ∀ (fuel : Nat) (wl : List (Nat × Option Nat × List Nat)) (out : List (Nat × Option Nat)),
      (∀ it ∈ wl, it.1 < g.nodes.length) → dfsRun g fuel wl = .ok out →
      ∀ v ∈ out, v.1 < g.nodes.length := by
  intro fuel
  induction fuel with
  | zero =>
    intro wl out hwl hok v hv
    simp only [dfsRun] at hok
    injection hok with h
    rw [← h] at hv
    cases hv
  | succ f ih =>
    intro wl out hwl hok v hv
    cases wl with
    | nil =>
      simp only [dfsRun] at hok
      injection hok with h
      rw [← h] at hv
      cases hv
    | cons it rest =>
      obtain ⟨n, parent, anc⟩ := it
      simp only [dfsRun] at hok
      by_cases hmem : n ∈ anc
      · rw [if_pos hmem] at hok
        exact Except.noConfusion hok
      · rw [if_neg hmem] at hok
        cases hrec : dfsRun g f
            (((child_node_indexes g n).map fun c => (c, some n, anc ++ [n])) ++ rest) with
        | error e => simp only [hrec] at hok; exact Except.noConfusion hok
        | ok tail =>
          simp only [hrec] at hok
          injection hok with h
          have hwl' : ∀ it ∈ ((child_node_indexes g n).map fun c =>
              (c, some n, anc ++ [n])) ++ rest, it.1 < g.nodes.length := by
            intro it hit
            rcases List.mem_append.mp hit with h1 | h1
            · obtain ⟨c, hc, hrfl⟩ := List.mem_map.mp h1
              rw [← hrfl]
              exact child_node_indexes_valid g hwf n c hc
            · exact hwl it (List.mem_cons_of_mem _ h1)
          rw [← h] at hv
          rcases List.mem_cons.mp hv with h1 | h1
          · rw [h1]
            exact hwl (n, parent, anc) (List.mem_cons_self _ _)
          · exact ih _ tail hwl' hrec v h1

theorem get_dfs_valid (g : CachedStableGraph) (hwf : graphWF g = true) (root : Nat)
    (hroot : root < g.nodes.length) (out : List (Nat × Option Nat))
    (hok : get_dfs_for_node g root = .ok out) : ∀ v ∈ out, v.1 < g.nodes.length := by
  refine dfsRun_valid g hwf (dfsFuel g) [(root, none, [])] out ?_ hok
  intro it hit
  rcases List.mem_cons.mp hit with h1 | h1
  · rw [h1]; exact hroot
  · cases h1

theorem getD_mem : ∀ (l : List Str) (i : Nat), i < l.length → l.getD i [] ∈ l := by
  intro l
  induction l with
  | nil => intro i h; exact absurd h (Nat.not_lt_zero i)
  | cons a rest ih =>
    intro i h
    cases i with
    | zero => exact List.mem_cons_self _ _
    | succ j => exact List.mem_cons_of_mem _ (ih j (Nat.lt_of_succ_lt_succ h))

theorem get_node_mem (g : CachedStableGraph) (i : Nat) (h : i < g.nodes.length) :
    get_node g i ∈ g.nodes :=
  getD_mem g.nodes i h

theorem find_node_aux_mem : ∀ (l : List Str) (p : Str) (i j : Nat),
    find_node_aux l p i = some j → p ∈ l := by
  intro l
  induction l with
  | nil => intro p i j h; exact Option.noConfusion h
  | cons q rest ih =>
    intro p i j h
    simp only [find_node_aux] at h
    by_cases he : q = p
    · exact List.mem_cons.mpr (Or.inl he.symm)
    · rw [if_neg he] at h
      exact List.mem_cons_of_mem _ (ih p (i + 1) j h)

theorem find_node_mem (g : CachedStableGraph) (p : Str) (i : Nat)
    (h : find_node g p = some i) : p ∈ g.nodes :=
  find_node_aux_mem g.nodes p 0 i h

theorem collectAncestorsAux_valid (g : CachedStableGraph) (hwf : graphWF g = true) :
    ∀ (fuel : Nat) (stack acc : List Nat),
      (∀ q ∈ stack, q < g.nodes.length) → (∀ q ∈ acc, q < g.nodes.length) →
      ∀ q ∈ collectAncestorsAux g fuel stack acc, q < g.nodes.length := by
  intro fuel
  induction fuel with
  | zero => intro stack acc hs ha q hq; exact ha q hq
  | succ f ih =>
    intro stack acc hs ha q hq
    cases stack with
    | nil => exact ha q hq
    | cons n rest =>
      simp only [collectAncestorsAux] at hq
      by_cases hmem : n ∈ acc
      · rw [if_pos hmem] at hq
        exact ih rest acc (fun x hx => hs x (List.mem_cons_of_mem _ hx)) ha q hq
      · rw [if_neg hmem] at hq
        refine ih _ _ ?_ ?_ q hq
        · intro x hx
          rcases List.mem_append.mp hx with h1 | h1
          · exact parent_node_indexes_valid g hwf n x h1
          · exact hs x (List.mem_cons_of_mem _ h1)
        · intro x hx
          rcases List.mem_append.mp hx with h1 | h1
          · exact ha x h1
          · rw [List.mem_singleton] at h1
            rw [h1]
            exact hs n (List.mem_cons_self _ _)

theorem collect_root_ancestors_valid (g : CachedStableGraph) (hwf : graphWF g = true)
    (i : Nat) : ∀ r ∈ collect_root_ancestors g i, r < g.nodes.length := by
  intro r hr
  have hr' := List.mem_of_mem_filter hr
  exact collectAncestorsAux_valid g hwf _ _ []
    (parent_node_indexes_valid g hwf i) (by intro x hx; cases hx) r hr'

/-! ### Invariants of the lint loops -/

theorem lintRootsLoop_reads_in_keys (g : CachedStableGraph) (fs : Str → Option Str) :
    ∀ (roots : List Nat) (srcs : List (Str × Str))
      (trees : List (TreeType × List (Nat × Option Nat))) (reads : List Str)
      (out : RootsOut),
      lintRootsLoop g fs roots srcs trees reads = .ok out →
      (∀ p ∈ reads, p ∈ srcKeys srcs) →
      (∀ e s r, out = .cycle e s r → ∀ p ∈ r, p ∈ srcKeys s) ∧
      (∀ s t r, out = .done s t r → ∀ p ∈ r, p ∈ srcKeys s) := by
  intro roots
  induction roots with
  | nil =>
    intro srcs trees reads out hok hinv
    simp only [lintRootsLoop] at hok
    injection hok with h
    subst h
    constructor
    · intro e s r hcy; exact RootsOut.noConfusion hcy
    · intro s t r hdone
      injection hdone with h1 h2 h3
      subst h1; subst h3
      exact hinv
  | cons r0 rest ih =>
    intro srcs trees reads out hok hinv
    simp only [lintRootsLoop] at hok
    cases hdfs : get_dfs_for_node g r0 with
    | error e0 =>
      simp only [hdfs] at hok
      injection hok with h
      subst h
      constructor
      · intro e s r hcy
        injection hcy with h1 h2 h3
        subst h2; subst h3
        exact hinv
      · intro s t r hdone; exact RootsOut.noConfusion hdone
    | ok nodes =>
      simp only [hdfs] at hok
      cases hext : extension? (get_node g r0) with
      | none =>
        simp only [hext] at hok
        exact ih _ _ _ out hok hinv
      | some ext =>
        simp only [hext] at hok
        cases htt : treeTypeFromExt ext with
        | none =>
          simp only [htt] at hok
          exact ih _ _ _ out hok hinv
        | some tt =>
          simp only [htt] at hok
          cases hls : load_sources g fs nodes with
          | error err => simp only [hls] at hok; exact Except.noConfusion hok
          | ok sr =>
            obtain ⟨s2, rds⟩ := sr
            simp only [hls] at hok
            refine ih _ _ _ out hok ?_
            intro p hp
            rcases List.mem_append.mp hp with h1 | h1
            · exact extendSrcs_keys_left s2 srcs p (hinv p h1)
            · exact extendSrcs_keys_right s2 srcs p
                ((load_sources_inv g fs nodes s2 rds hls).1 p h1)

theorem lintRootsLoop_keys_absolute (g : CachedStableGraph) (fs : Str → Option Str)
    (hwf : graphWF g = true) (habs : ∀ q ∈ g.nodes, isAbsolute q = true) :
    ∀ (roots : List Nat) (srcs : List (Str × Str))
      (trees : List (TreeType × List (Nat × Option Nat))) (reads : List Str)
      (out : RootsOut),
      (∀ r ∈ roots, r < g.nodes.length) →
      lintRootsLoop g fs roots srcs trees reads = .ok out →
      (∀ p ∈ srcKeys srcs, isAbsolute p = true) →
      (∀ e s r, out = .cycle e s r → ∀ p ∈ srcKeys s, isAbsolute p = true) ∧
      (∀ s t r, out = .done s t r → ∀ p ∈ srcKeys s, isAbsolute p = true) := by
  intro roots
  induction roots with
  | nil =>
    intro srcs trees reads out hroots hok hinv
    simp only [lintRootsLoop] at hok
    injection hok with h
    subst h
    constructor
    · intro e s r hcy; exact RootsOut.noConfusion hcy
    · intro s t r hdone
      injection hdone with h1 h2 h3
      subst h1
      exact hinv
  | cons r0 rest ih =>
    intro srcs trees reads out hroots hok hinv
    have hr0 : r0 < g.nodes.length := hroots r0 (List.mem_cons_self _ _)
    have hrest : ∀ r ∈ rest, r < g.nodes.length :=
      fun r hr => hroots r (List.mem_cons_of_mem _ hr)
    simp only [lintRootsLoop] at hok
    cases hdfs : get_dfs_for_node g r0 with
    | error e0 =>
      simp only [hdfs] at hok
      injection hok with h
      subst h
      constructor
      · intro e s r hcy
        injection hcy with h1 h2 h3
        subst h2
        exact hinv
      · intro s t r hdone; exact RootsOut.noConfusion hdone
    | ok nodes =>
      simp only [hdfs] at hok
      cases hext : extension? (get_node g r0) with
      | none =>
        simp only [hext] at hok
        exact ih _ _ _ out hrest hok hinv
      | some ext =>
        simp only [hext] at hok
        cases htt : treeTypeFromExt ext with
        | none =>
          simp only [htt] at hok
          exact ih _ _ _ out hrest hok hinv
        | some tt =>
          simp only [htt] at hok
          cases hls : load_sources g fs nodes with
          | error err => simp only [hls] at hok; exact Except.noConfusion hok
          | ok sr =>
            obtain ⟨s2, rds⟩ := sr
            simp only [hls] at hok
            refine ih _ _ _ out hrest hok ?_
            intro p hp
            rcases extendSrcs_keys_sub s2 srcs p hp with h1 | h1
            · exact hinv p h1
            · obtain ⟨n', hn', hp'⟩ := (load_sources_inv g fs nodes s2 rds hls).2 p h1
              have hnval : n'.1 < g.nodes.length :=
                get_dfs_valid g hwf r0 hr0 nodes hdfs n' hn'
              rw [hp']
              exact habs _ (get_node_mem g n'.1 hnval)

theorem lintTreesLoop_validate_none (g : CachedStableGraph) (validate : Validate)
    (merge : Merge) (uri : Str) (srcs : List (Str × Str))
    (hv : ∀ tt v, validate tt v = none) :
    ∀ (trees : List (TreeType × List (Nat × Option Nat))) (m : DiagMap)
      (vlog : List (TreeType × Str)),
      ∃ vl, lintTreesLoop g validate merge uri srcs trees m vlog = .ok (m, vl) := by
  intro trees
  induction trees with
  | nil => intro m vlog; exact ⟨vlog, rfl⟩
  | cons t rest ih =>
    intro m vlog
    obtain ⟨tt, nodes⟩ := t
    obtain ⟨vl, hvl⟩ := ih m (vlog ++ [(tt, merge nodes srcs g)])
    refine ⟨vl, ?_⟩
    simp only [lintTreesLoop, hv]
    exact hvl

/-! ### C2: back-fill covers every loaded file -/

/-- C2: whenever lint returns a result map R, the URI of every file whose
source was loaded during that lint's traversals is a key of R — also when
the validator returns no output and when a root's extension disqualifies
it — and with a driver that never returns output every such key other than
possibly the linted file's own carries the empty diagnostic list. -/
theorem lint_result_covers_loaded_files (g : CachedStableGraph) (fs : Str → Option Str)
    (validate : Validate) (merge : Merge) (uri : Str) (m : DiagMap) (log : LintLog)
    (hok : lint g fs validate merge uri = .ok (m, log)) :
    (∀ p ∈ log.reads, (lookupMap m ⟨p⟩).isSome = true) ∧
    ((∀ tt v, validate tt v = none) → ∀ p ∈ log.reads,
      lookupMap m ⟨p⟩ = some [] ∨ p = uri) := by
  cases hfn : find_node g uri with
  | none => simp only [lint, hfn] at hok; exact Except.noConfusion hok
  | some curr =>
    simp only [lint, hfn] at hok
    by_cases han : (collect_root_ancestors g curr).isEmpty = true
    · rw [if_pos han] at hok
      cases hdfs : get_dfs_for_node g curr with
      | error e =>
        simp only [hdfs] at hok
        cases huu : urlUnwrap uri with
        | error err => simp only [huu] at hok; exact Except.noConfusion hok
        | ok u =>
          simp only [huu] at hok
          injection hok with h
          injection h with hm hl
          rw [← hm, ← hl]
          constructor
          · intro p hp; cases hp
          · intro hv p hp; cases hp
      | ok tree =>
        simp only [hdfs] at hok
        cases hls : load_sources g fs tree with
        | error err => simp only [hls] at hok; exact Except.noConfusion hok
        | ok sr =>
          obtain ⟨srcs, reads⟩ := sr
          simp only [hls] at hok
          have hreads : ∀ p ∈ reads, p ∈ srcKeys srcs :=
            (load_sources_inv g fs tree srcs reads hls).1
          cases hext : extension? (get_node g curr) with
          | none =>
            simp only [hext] at hok
            cases hbf : back_fill srcs [] with
            | error err => simp only [hbf] at hok; exact Except.noConfusion hok
            | ok m1 =>
              simp only [hbf] at hok
              injection hok with h
              injection h with hm hl
              rw [← hm, ← hl]
              constructor
              · intro p hp
                exact back_fill_covers srcs [] m1 p hbf (hreads p hp)
              · intro hv p hp
                rcases back_fill_cases srcs [] m1 ⟨p⟩ hbf with h1 | h1
                · have h2 := back_fill_covers srcs [] m1 p hbf (hreads p hp)
                  rw [h1] at h2
                  exact absurd h2 (by simp [lookupMap])
                · exact Or.inl h1
          | some ext =>
            simp only [hext] at hok
            cases htt : treeTypeFromExt ext with
            | none =>
              simp only [htt] at hok
              cases hbf : back_fill srcs [] with
              | error err => simp only [hbf] at hok; exact Except.noConfusion hok
              | ok m1 =>
                simp only [hbf] at hok
                injection hok with h
                injection h with hm hl
                rw [← hm, ← hl]
                constructor
                · intro p hp
                  exact back_fill_covers srcs [] m1 p hbf (hreads p hp)
                · intro hv p hp
                  rcases back_fill_cases srcs [] m1 ⟨p⟩ hbf with h1 | h1
                  · have h2 := back_fill_covers srcs [] m1 p hbf (hreads p hp)
                    rw [h1] at h2
                    exact absurd h2 (by simp [lookupMap])
                  · exact Or.inl h1
            | some tt =>
              simp only [htt] at hok
              cases hvs : validate tt (merge tree srcs g) with
              | none =>
                simp only [hvs] at hok
                cases hbf : back_fill srcs [] with
                | error err => simp only [hbf] at hok; exact Except.noConfusion hok
                | ok m1 =>
                  simp only [hbf] at hok
                  injection hok with h
                  injection h with hm hl
                  rw [← hm, ← hl]
                  constructor
                  · intro p hp
                    exact back_fill_covers srcs [] m1 p hbf (hreads p hp)
                  · intro hv p hp
                    rcases back_fill_cases srcs [] m1 ⟨p⟩ hbf with h1 | h1
                    · have h2 := back_fill_covers srcs [] m1 p hbf (hreads p hp)
                      rw [h1] at h2
                      exact absurd h2 (by simp [lookupMap])
                    · exact Or.inl h1
              | some stdout =>
                simp only [hvs] at hok
                cases hps : parse_validator_stdout uri stdout with
                | error err => simp only [hps] at hok; exact Except.noConfusion hok
                | ok parsed =>
                  simp only [hps] at hok
                  cases hbf : back_fill srcs (extendMap [] parsed) with
                  | error err => simp only [hbf] at hok; exact Except.noConfusion hok
                  | ok m1 =>
                    simp only [hbf] at hok
                    injection hok with h
                    injection h with hm hl
                    rw [← hm, ← hl]
                    constructor
                    · intro p hp
                      exact back_fill_covers srcs _ m1 p hbf (hreads p hp)
                    · intro hv p hp
                      rw [hv tt (merge tree srcs g)] at hvs
                      exact Option.noConfusion hvs
    · rw [if_neg han] at hok
      cases hrl : lintRootsLoop g fs (collect_root_ancestors g curr) [] [] [] with
      | error err => simp only [hrl] at hok; exact Except.noConfusion hok
      | ok out =>
        cases out with
        | cycle e srcs reads =>
          simp only [hrl] at hok
          cases huu : urlUnwrap uri with
          | error err => simp only [huu] at hok; exact Except.noConfusion hok
          | ok u =>
            simp only [huu] at hok
            cases hbf : back_fill srcs [(u, [diagnosticFromCycle e])] with
            | error err => simp only [hbf] at hok; exact Except.noConfusion hok
            | ok m1 =>
              simp only [hbf] at hok
              injection hok with h
              injection h with hm hl
              rw [← hm, ← hl]
              have hreads : ∀ p ∈ reads, p ∈ srcKeys srcs :=
                (lintRootsLoop_reads_in_keys g fs _ [] [] [] _ hrl
                  (by intro q hq; cases hq)).1 e srcs reads rfl
              constructor
              · intro p hp
                exact back_fill_covers srcs _ m1 p hbf (hreads p hp)
              · intro hv p hp
                rcases back_fill_cases srcs _ m1 ⟨p⟩ hbf with h1 | h1
                · by_cases hpu : (⟨p⟩ : Url) = u
                  · have huv : u = Url.mk uri := urlUnwrap_ok_val uri u huu
                    rw [huv] at hpu
                    injection hpu with h2
                    exact Or.inr h2
                  · have h3 : lookupMap [(u, [diagnosticFromCycle e])] ⟨p⟩ = none :=
                      if_neg (fun hc => hpu hc.symm)
                    have h2 := back_fill_covers srcs _ m1 p hbf (hreads p hp)
                    rw [h1, h3] at h2
                    exact absurd h2 (by simp)
                · exact Or.inl h1
        | done srcs trees reads =>
          simp only [hrl] at hok
          cases htl : lintTreesLoop g validate merge uri srcs trees [] [] with
          | error err => simp only [htl] at hok; exact Except.noConfusion hok
          | ok mv =>
            obtain ⟨m0, vlog⟩ := mv
            simp only [htl] at hok
            cases hbf : back_fill srcs m0 with
            | error err => simp only [hbf] at hok; exact Except.noConfusion hok
            | ok m1 =>
              simp only [hbf] at hok
              injection hok with h
              injection h with hm hl
              rw [← hm, ← hl]
              have hreads : ∀ p ∈ reads, p ∈ srcKeys srcs :=
                (lintRootsLoop_reads_in_keys g fs _ [] [] [] _ hrl
                  (by intro q hq; cases hq)).2 srcs trees reads rfl
              constructor
              · intro p hp
                exact back_fill_covers srcs m0 m1 p hbf (hreads p hp)
              · intro hv p hp
                obtain ⟨vl, hvl⟩ :=
                  lintTreesLoop_validate_none g validate merge uri srcs hv trees [] []
                rw [htl] at hvl
                injection hvl with h2
                injection h2 with hm0 hv2
                rcases back_fill_cases srcs m0 m1 ⟨p⟩ hbf with h1 | h1
                · have h2c := back_fill_covers srcs m0 m1 p hbf (hreads p hp)
                  rw [h1, hm0] at h2c
                  exact absurd h2c (by simp [lookupMap])
                · exact Or.inl h1

def c2Graph : CachedStableGraph :=
  { nodes := [str "/w/shaders/a.fsh", str "/w/shaders/b.glsl"]
    edges := [(0, 1, ⟨1, 10, 16⟩)] }

def c2Fs : Str → Option Str := fun p =>
  if p = str "/w/shaders/a.fsh" then some (str "#version 330\n#include \"b.glsl\"\n")
  else if p = str "/w/shaders/b.glsl" then some (str "int x;\n")
  else none

def c2Map : DiagMap := [(⟨str "/w/shaders/a.fsh"⟩, []), (⟨str "/w/shaders/b.glsl"⟩, [])]

def c2Log : LintLog :=
  ⟨[str "/w/shaders/a.fsh", str "/w/shaders/b.glsl"], [(TreeType.Fragment, [])]⟩

/-- Witness for the C2 theorem: a fragment root including one library file,
with a driver that returns no output; both loaded files end up as keys with
empty diagnostic lists. -/
theorem lint_result_covers_loaded_files_witness :
    lint c2Graph c2Fs vNone mEmpty (str "/w/shaders/a.fsh") = .ok (c2Map, c2Log) ∧
      ((∀ p ∈ c2Log.reads, (lookupMap c2Map ⟨p⟩).isSome = true) ∧
       ((∀ tt v, vNone tt v = none) → ∀ p ∈ c2Log.reads,
         lookupMap c2Map ⟨p⟩ = some [] ∨ p = str "/w/shaders/a.fsh")) :=
  ⟨by decide,
    lint_result_covers_loaded_files c2Graph c2Fs vNone mEmpty (str "/w/shaders/a.fsh")
      c2Map c2Log (by decide)⟩

/-! ### C4: cycles yield one diagnostic and no validation -/

/-- C4: when the DFS from a root encounters a cycle, lint returns Ok with a
result map carrying exactly one cycle diagnostic, attached to the linted
file's URI, and the validator is never invoked.  The cycle may be hit in the
top-level branch (the linted file is itself a root) or while iterating the
root ancestors. -/
theorem lint_cycle_single_diagnostic (g : CachedStableGraph) (fs : Str → Option Str)
    (validate : Validate) (merge : Merge) (uri : Str) (curr : Nat) (e : CycleError)
    (hwf : graphWF g = true)
    (habs : ∀ q ∈ g.nodes, isAbsolute q = true)
    (hfind : find_node g uri = some curr)
    (hcyc : ((collect_root_ancestors g curr).isEmpty = true ∧
             get_dfs_for_node g curr = .error e) ∨
            ((collect_root_ancestors g curr).isEmpty = false ∧
             ∃ srcs reads, lintRootsLoop g fs (collect_root_ancestors g curr) [] [] [] =
               .ok (.cycle e srcs reads))) :
    ∃ m log, lint g fs validate merge uri = .ok (m, log) ∧
      lookupMap m ⟨uri⟩ = some [diagnosticFromCycle e] ∧ log.validations = [] := by
  have huabs : isAbsolute uri = true := habs uri (find_node_mem g uri curr hfind)
  rcases hcyc with ⟨han, hdfs⟩ | ⟨han, srcs, reads, hrl⟩
  · refine ⟨[(⟨uri⟩, [diagnosticFromCycle e])], ⟨[], []⟩, ?_, if_pos rfl, rfl⟩
    simp only [lint, hfind]
    rw [if_pos han]
    simp only [hdfs, urlUnwrap_ok_abs uri huabs]
  · have hkeysabs : ∀ p ∈ srcKeys srcs, isAbsolute p = true :=
      (lintRootsLoop_keys_absolute g fs hwf habs _ [] [] [] _
        (collect_root_ancestors_valid g hwf curr) hrl
        (by intro q hq; cases hq)).1 e srcs reads rfl
    obtain ⟨m1, hbf⟩ := back_fill_total srcs [(⟨uri⟩, [diagnosticFromCycle e])] hkeysabs
    have han' : ¬ ((collect_root_ancestors g curr).isEmpty = true) := by
      rw [han]
      exact Bool.false_ne_true
    have h0 : lookupMap [(⟨uri⟩, [diagnosticFromCycle e])] ⟨uri⟩ =
        some [diagnosticFromCycle e] := if_pos rfl
    refine ⟨m1, ⟨reads, []⟩, ?_, ?_, rfl⟩
    · simp only [lint, hfind]
      rw [if_neg han']
      simp only [hrl, urlUnwrap_ok_abs uri huabs, hbf]
    · have hpres := back_fill_preserve srcs _ m1 ⟨uri⟩ hbf (by rw [h0]; rfl)
      rw [hpres, h0]

def c4Graph : CachedStableGraph :=
  { nodes := [str "/w/shaders/a.fsh", str "/w/shaders/b.glsl"]
    edges := [(0, 1, ⟨1, 10, 16⟩), (1, 0, ⟨0, 10, 15⟩)] }

/-- Witness for the C4 theorem: two files including each other; linting the
root yields the single cycle diagnostic and no validator call. -/
theorem lint_cycle_single_diagnostic_witness :
    graphWF c4Graph = true ∧
      (∃ m log, lint c4Graph c2Fs vNone mEmpty (str "/w/shaders/a.fsh") = .ok (m, log) ∧
        lookupMap m ⟨str "/w/shaders/a.fsh"⟩ = some [diagnosticFromCycle ⟨1, 0⟩] ∧
        log.validations = []) :=
  ⟨by decide,
    lint_cycle_single_diagnostic c4Graph c2Fs vNone mEmpty (str "/w/shaders/a.fsh") 0
      ⟨1, 0⟩ (by decide) (by decide) (by decide) (Or.inl ⟨by decide, by decide⟩)⟩

/-! ### C5 (amended): full characterization of the include extraction -/

theorem lastQuoteSplit_none_iff (l : Str) : lastQuoteSplit l = none ↔ ¬ '"' ∈ l := by
  induction l with
  | nil => simp [lastQuoteSplit]
  | cons c cs ih =>
    simp only [lastQuoteSplit]
    cases h : lastQuoteSplit cs with
    | some p =>
      constructor
      · intro hc; exact Option.noConfusion hc
      · intro hn
        exfalso
        have hmem : '"' ∈ cs := by
          by_contra hq
          rw [ih.mpr hq] at h
          exact Option.noConfusion h
        exact hn (List.mem_cons_of_mem _ hmem)
    | none =>
      have hq : ¬ '"' ∈ cs := ih.mp h
      by_cases hc : c = '"'
      · rw [if_pos hc]
        constructor
        · intro hx; exact Option.noConfusion hx
        · intro hn; exact absurd (List.mem_cons.mpr (Or.inl hc.symm)) hn
      · rw [if_neg hc]
        constructor
        · intro _ hm
          rcases List.mem_cons.mp hm with h1 | h1
          · exact hc h1.symm
          · exact hq h1
        · intro _; rfl

theorem lastQuoteSplit_sound (l : Str) :
    ∀ cap t, lastQuoteSplit l = some (cap, t) → l = cap ++ '"' :: t ∧ ¬ '"' ∈ t := by
  induction l with
  | nil => intro cap t h; exact Option.noConfusion h
  | cons c cs ih =>
    intro cap t h
    simp only [lastQuoteSplit] at h
    cases hcs : lastQuoteSplit cs with
    | some p =>
      obtain ⟨cap', t'⟩ := p
      simp only [hcs] at h
      injection h with h
      injection h with h1 h2
      obtain ⟨hdec, hq⟩ := ih cap' t' hcs
      constructor
      · rw [← h1, ← h2, hdec]
        rfl
      · rw [← h2]
        exact hq
    | none =>
      simp only [hcs] at h
      by_cases hc : c = '"'
      · rw [if_pos hc] at h
        injection h with h
        injection h with h1 h2
        constructor
        · rw [← h1, ← h2, hc]
          rfl
        · rw [← h2]
          exact (lastQuoteSplit_none_iff cs).mp hcs
      · rw [if_neg hc] at h
        exact Option.noConfusion h

theorem lastQuoteSplit_complete : ∀ (cap t : Str), ¬ '"' ∈ t →
    lastQuoteSplit (cap ++ '"' :: t) = some (cap, t) := by
  intro cap
  induction cap with
  | nil =>
    intro t ht
    simp only [List.nil_append, lastQuoteSplit, (lastQuoteSplit_none_iff t).mpr ht]
    simp
  | cons c cap' ih =>
    intro t ht
    show lastQuoteSplit (c :: (cap' ++ '"' :: t)) = some (c :: cap', t)
    simp only [lastQuoteSplit, ih t ht]

theorem takeWhile_no_newline (l : Str) (h : ¬ '\n' ∈ l) :
    l.takeWhile (fun c => c ≠ '\n') = l := by
  induction l with
  | nil => rfl
  | cons c cs ih =>
    have hc : ¬ c = '\n' := fun hx => h (hx ▸ List.mem_cons_self _ _)
    have hcs : ¬ '\n' ∈ cs := fun hx => h (List.mem_cons_of_mem _ hx)
    rw [List.takeWhile_cons, if_pos (decide_eq_true hc), ih hcs]

theorem includeCapture_iff (rest : Str) (hnl : ¬ '\n' ∈ rest) (cap : Str) :
    includeCapture rest = some cap ↔
      ∃ t, rest = cap ++ '"' :: t ∧ ¬ '"' ∈ t ∧ cap ≠ [] := by
  unfold includeCapture
  rw [takeWhile_no_newline rest hnl]
  constructor
  · intro h
    cases hsp : lastQuoteSplit rest with
    | none => simp only [hsp] at h; exact Option.noConfusion h
    | some p =>
      obtain ⟨cap', t⟩ := p
      simp only [hsp] at h
      by_cases hce : cap'.isEmpty = true
      · rw [if_pos hce] at h
        exact Option.noConfusion h
      · rw [if_neg hce] at h
        injection h with h
        obtain ⟨hdec, hq⟩ := lastQuoteSplit_sound rest cap' t hsp
        refine ⟨t, by rw [← h]; exact hdec, hq, ?_⟩
        rw [← h]
        intro hnil
        exact hce (by rw [hnil]; rfl)
  · intro hex
    obtain ⟨t, hdec, hq, hne⟩ := hex
    rw [hdec]
    simp only [lastQuoteSplit_complete cap t hq]
    rw [if_neg (fun hc : cap.isEmpty = true => hne (by cases cap with
      | nil => rfl
      | cons a b => exact absurd hc (by simp)))]

theorem isPrefixOf_iff_exists (p l : Str) : p.isPrefixOf l = true ↔ ∃ t, l = p ++ t := by
  rw [List.isPrefixOf_iff_prefix]
  constructor
  · intro h
    obtain ⟨t, ht⟩ := h
    exact ⟨t, ht.symm⟩
  · intro h
    obtain ⟨t, ht⟩ := h
    exact ⟨t, ht.symm⟩

theorem matchIncludeAux_iff (line : Str) :
    ∀ (w : Nat) (cap : Str) (s e : Nat), ¬ '\n' ∈ line →
      (matchIncludeAux line w = some (cap, s, e) ↔
        ∃ ws t, line = ws ++ includeLit ++ (cap ++ '"' :: t) ∧
          (∀ c ∈ ws, c.isWhitespace = true) ∧ cap ≠ [] ∧ ¬ '"' ∈ t ∧
          s = w + utf8Len ws + 10 ∧ e = s + utf8Len cap) := by
  induction line with
  | nil =>
    intro w cap s e hnl
    constructor
    · intro h; exact Option.noConfusion h
    · intro hex
      obtain ⟨ws, t, hdec, _⟩ := hex
      exfalso
      have hlen := congrArg List.length hdec
      have h10 : includeLit.length = 10 := rfl
      simp only [List.length_nil, List.length_append, List.length_cons, h10] at hlen
      omega
  | cons c cs ih =>
    intro w cap s e hnl
    have hnl' : ¬ '\n' ∈ cs := fun hx => hnl (List.mem_cons_of_mem _ hx)
    by_cases hp : includeLit.isPrefixOf (c :: cs) = true
    · obtain ⟨rest, hrest⟩ := (isPrefixOf_iff_exists includeLit (c :: cs)).mp hp
      have hnlr : ¬ '\n' ∈ rest := fun hx =>
        hnl (by rw [hrest]; exact List.mem_append.mpr (Or.inr hx))
      have hunf : matchIncludeAux (c :: cs) w =
          match includeCapture ((c :: cs).drop includeLit.length) with
          | none => none
          | some cap' => some (cap', w + 10, w + 10 + utf8Len cap') := by
        simp only [matchIncludeAux, if_pos hp]
      rw [hunf, hrest, List.drop_left]
      constructor
      · intro h
        cases hic : includeCapture rest with
        | none => simp only [hic] at h; exact Option.noConfusion h
        | some cap' =>
          simp only [hic] at h
          injection h with h
          injection h with h1 h2
          injection h2 with h2 h3
          obtain ⟨t, hdec, hq, hne⟩ := (includeCapture_iff rest hnlr cap').mp hic
          refine ⟨[], t, ?_, ?_, ?_, hq, ?_, ?_⟩
          · rw [List.nil_append, hdec, h1]
          · intro x hx; cases hx
          · rw [← h1]; exact hne
          · rw [← h2]; simp [utf8Len]
          · rw [← h3, ← h2, ← h1]
      · intro hex
        obtain ⟨ws, t, hdec, hws, hne, hq, hs, he⟩ := hex
        cases ws with
        | cons w0 ws' =>
          exfalso
          have hIL : includeLit = '#' :: str "include \"" := rfl
          rw [hIL] at hdec
          have hdec2 : '#' :: (str "include \"" ++ rest) =
              w0 :: (ws' ++ ('#' :: str "include \"") ++ (cap ++ '"' :: t)) := hdec
          injection hdec2 with hh _
          have hwsr := hws w0 (List.mem_cons_self _ _)
          rw [← hh] at hwsr
          exact absurd hwsr (by decide)
        | nil =>
          rw [List.nil_append] at hdec
          have hr : rest = cap ++ '"' :: t := List.append_cancel_left hdec
          have hic : includeCapture rest = some cap :=
            (includeCapture_iff rest hnlr cap).mpr ⟨t, hr, hq, hne⟩
          simp only [hic]
          have hs' : s = w + 10 := by rw [hs]; simp [utf8Len]
          rw [he, hs']
    · by_cases hw : c.isWhitespace = true
      · have hunf : matchIncludeAux (c :: cs) w = matchIncludeAux cs (w + c.utf8Size) := by
          simp only [matchIncludeAux, if_neg hp, if_pos hw]
        rw [hunf, ih (w + c.utf8Size) cap s e hnl']
        constructor
        · intro hex
          obtain ⟨ws', t, hdec, hws, hne, hq, hs, he⟩ := hex
          refine ⟨c :: ws', t, ?_, ?_, hne, hq, ?_, he⟩
          · show c :: cs = c :: (ws' ++ includeLit ++ (cap ++ '"' :: t))
            rw [hdec]
          · intro x hx
            rcases List.mem_cons.mp hx with h1 | h1
            · rw [h1]; exact hw
            · exact hws x h1
          · rw [hs]
            simp only [utf8Len]
            omega
        · intro hex
          obtain ⟨ws, t, hdec, hws, hne, hq, hs, he⟩ := hex
          cases ws with
          | nil =>
            exfalso
            rw [List.nil_append] at hdec
            exact hp ((isPrefixOf_iff_exists includeLit (c :: cs)).mpr ⟨cap ++ '"' :: t, hdec⟩)
          | cons w0 ws' =>
            have hh : c :: cs = w0 :: (ws' ++ includeLit ++ (cap ++ '"' :: t)) := hdec
            injection hh with hcw hcs2
            refine ⟨ws', t, hcs2, fun x hx => hws x (List.mem_cons_of_mem _ hx), hne, hq,
              ?_, he⟩
            rw [hs, hcw]
            simp only [utf8Len]
            omega
      · have hunf : matchIncludeAux (c :: cs) w = none := by
          simp only [matchIncludeAux, if_neg hp, if_neg hw]
        rw [hunf]
        constructor
        · intro h; exact Option.noConfusion h
        · intro hex
          obtain ⟨ws, t, hdec, hws, _, _, _, _⟩ := hex
          exfalso
          cases ws with
          | nil =>
            rw [List.nil_append] at hdec
            exact hp ((isPrefixOf_iff_exists includeLit (c :: cs)).mpr ⟨cap ++ '"' :: t, hdec⟩)
          | cons w0 ws' =>
            have hh : c :: cs = w0 :: (ws' ++ includeLit ++ (cap ++ '"' :: t)) := hdec
            injection hh with hcw _
            exact hw (by rw [hcw]; exact hws w0 (List.mem_cons_self _ _))

/-- C5 (amended): a line is extracted as an include iff it matches RE_INCLUDE
as compiled, a pattern with no end anchor: optional leading whitespace, the
include literal, a nonempty capture extending to the LAST double quote of
the line, and arbitrary trailing content after that quote; the capture's
byte offsets within the raw line become the start and end columns. -/
theorem include_match_characterization (line cap : Str) (s e : Nat)
    (hnl : ¬ '\n' ∈ line) :
    matchInclude line = some (cap, s, e) ↔
      ∃ ws t, line = ws ++ includeLit ++ (cap ++ '"' :: t) ∧
        (∀ c ∈ ws, c.isWhitespace = true) ∧ cap ≠ [] ∧ ¬ '"' ∈ t ∧
        s = utf8Len ws + 10 ∧ e = s + utf8Len cap := by
  have h := matchIncludeAux_iff line 0 cap s e hnl
  constructor
  · intro hm
    obtain ⟨ws, t, h1, h2, h3, h4, h5, h6⟩ := h.mp hm
    exact ⟨ws, t, h1, h2, h3, h4, by omega, h6⟩
  · intro hex
    obtain ⟨ws, t, h1, h2, h3, h4, h5, h6⟩ := hex
    exact h.mpr ⟨ws, t, h1, h2, h3, h4, by omega, h6⟩

/-- Witness for the amended C5 theorem at a line with trailing content. -/
theorem include_match_characterization_witness :
    ¬ '\n' ∈ str "#include \"a.glsl\" foo" ∧
      (matchInclude (str "#include \"a.glsl\" foo") = some (str "a.glsl", 10, 16) ↔
        ∃ ws t, str "#include \"a.glsl\" foo" =
            ws ++ includeLit ++ (str "a.glsl" ++ '"' :: t) ∧
          (∀ c ∈ ws, c.isWhitespace = true) ∧ str "a.glsl" ≠ [] ∧ ¬ '"' ∈ t ∧
          10 = utf8Len ws + 10 ∧ 16 = 10 + utf8Len (str "a.glsl")) :=
  ⟨by decide,
    include_match_characterization (str "#include \"a.glsl\" foo") (str "a.glsl") 10 16
      (by decide)⟩

/-! ### C6: include-target resolution -/

theorem find_includes_fold_mem (root file : Str) :
    ∀ (lis : List (Nat × Str)) (acc : List (Str × IncludePosition))
      (entry : Str × IncludePosition),
      entry ∈ lis.foldl (fun acc li =>
        match matchInclude li.2 with
        | none => acc
        | some (cap, s, e) => acc ++ [(resolveInclude root file cap, ⟨li.1, s, e⟩)]) acc →
      entry ∈ acc ∨ ∃ i line cap s e, (i, line) ∈ lis ∧
        matchInclude line = some (cap, s, e) ∧
        entry = (resolveInclude root file cap, ⟨i, s, e⟩) := by
  intro lis
  induction lis with
  | nil => intro acc entry h; exact Or.inl h
  | cons li rest ih =>
    intro acc entry h
    rcases ih _ entry h with h1 | h1
    · cases hml : matchInclude li.2 with
      | none =>
        simp only [hml] at h1
        exact Or.inl h1
      | some q =>
        obtain ⟨cap, se⟩ := q
        obtain ⟨s, e⟩ := se
        simp only [hml] at h1
        rcases List.mem_append.mp h1 with h2 | h2
        · exact Or.inl h2
        · rw [List.mem_singleton] at h2
          exact Or.inr ⟨li.1, li.2, cap, s, e, List.mem_cons_self _ _, hml, h2⟩
    · obtain ⟨i, line, cap, s, e, hmem2, hmatch, hentry⟩ := h1
      exact Or.inr ⟨i, line, cap, s, e, List.mem_cons_of_mem _ hmem2, hmatch, hentry⟩

/-- C6: every include entry the scanner emits originates from a line whose
capture is resolved by the two-rule scheme: a capture with a leading slash is
stripped of it and joined under workspace_root/shaders, any other capture is
joined to the including file's parent directory.  Path separators are the
host's; forward slashes in the target pass through unchanged on a Unix host. -/
theorem find_includes_resolution (root file content : Str)
    (entry : Str × IncludePosition) (hmem : entry ∈ find_includes root file content) :
    ∃ line cap, (entry.2.line, line) ∈ (linesOf content).enum ∧
      matchInclude line = some (cap, entry.2.start, entry.2.stop) ∧
      entry.1 = (if isAbsolute cap then
          joinPath (joinPath root (str "shaders")) (cap.drop 1)
        else joinPath (parentPath file) cap) := by
  rcases find_includes_fold_mem root file (linesOf content).enum [] entry hmem with h1 | h1
  · cases h1
  · obtain ⟨i, line, cap, s, e, hmem2, hmatch, hentry⟩ := h1
    refine ⟨line, cap, ?_, ?_, ?_⟩
    · rw [hentry]; exact hmem2
    · rw [hentry]; exact hmatch
    · rw [hentry]
      exact rfl

def c6Content : Str := str "#include \"common.glsl\"\n#include \"/lib/c.glsl\"\n"

def c6Entry : Str × IncludePosition := (str "/w/shaders/lib/c.glsl", ⟨1, 10, 21⟩)

/-- Witness for the C6 theorem at an absolute include target. -/
theorem find_includes_resolution_witness :
    c6Entry ∈ find_includes (str "/w") (str "/w/shaders/a.fsh") c6Content ∧
      (∃ line cap, (c6Entry.2.line, line) ∈ (linesOf c6Content).enum ∧
        matchInclude line = some (cap, c6Entry.2.start, c6Entry.2.stop) ∧
        c6Entry.1 = (if isAbsolute cap then
            joinPath (joinPath (str "/w") (str "shaders")) (cap.drop 1)
          else joinPath (parentPath (str "/w/shaders/a.fsh")) cap)) :=
  ⟨by decide,
    find_includes_resolution (str "/w") (str "/w/shaders/a.fsh") c6Content c6Entry
      (by decide)⟩
